import Mathlib

/-!
Shallow embedding of the clear-html normalization pipeline
(`clear_html/clean.py`, `clear_html/formatted_text/*`, `clear_html/lxml_utils.py`,
`clear_html/html_embeddings.py`) together with theorems settling the claims
about it.

The DOM model follows lxml semantics: each element has a tag, an ordered
attribute list, a leading `text`, an ordered children list and a trailing
`tail`.  `text`/`tail` are `Option String` to keep Python's `None` vs `""`
distinction (Python truthiness treats both as falsy, but they are distinct
values).  Node identity (used by the embed whitelist) is modelled with a
numeric `id` field; functions of the source that operate on Python object
identity operate on these ids here.
-/

/-- A DOM node in the lxml text/tail model. -/
inductive HNode : Type where
  | elem (id : Nat) (tag : String) (attrs : List (String × String))
         (text : Option String) (children : List HNode) (tail : Option String)
deriving Repr

namespace HNode

def idOf : HNode → Nat
  | elem i _ _ _ _ _ => i

def tag : HNode → String
  | elem _ t _ _ _ _ => t

def attrs : HNode → List (String × String)
  | elem _ _ a _ _ _ => a

def text : HNode → Option String
  | elem _ _ _ tx _ _ => tx

def children : HNode → List HNode
  | elem _ _ _ _ cs _ => cs

def tail : HNode → Option String
  | elem _ _ _ _ _ tl => tl

def withTag (t : String) : HNode → HNode
  | elem i _ a tx cs tl => elem i t a tx cs tl

def withAttrs (a : List (String × String)) : HNode → HNode
  | elem i t _ tx cs tl => elem i t a tx cs tl

def withText (tx : Option String) : HNode → HNode
  | elem i t a _ cs tl => elem i t a tx cs tl

def withChildren (cs : List HNode) : HNode → HNode
  | elem i t a tx _ tl => elem i t a tx cs tl

def withTail (tl : Option String) : HNode → HNode
  | elem i t a tx cs _ => elem i t a tx cs tl

/-- lxml `Element(tag)`: a fresh element with no attributes, text, children
or tail.  Nodes created by the pipeline carry id 0. -/
def newElem (t : String) : HNode := elem 0 t [] none [] none

end HNode

/-- Python `str.lstrip()` (whitespace), computable by structural
recursion. -/
def strTrimLeft (s : String) : String :=
  .mk (s.toList.dropWhile Char.isWhitespace)

/-- Python `str.rstrip()` (whitespace), computable by structural
recursion. -/
def strTrimRight (s : String) : String :=
  .mk ((s.toList.reverse.dropWhile Char.isWhitespace).reverse)

/-- Python `str.strip()` (whitespace), computable by structural
recursion. -/
def strTrim (s : String) : String := strTrimLeft (strTrimRight s)

/-- `str.startswith`, computable by structural recursion. -/
def strStartsWith (s pre : String) : Bool := pre.toList.isPrefixOf s.toList

/-- `str.lower`, computable by structural recursion. -/
def strToLower (s : String) : String := .mk (s.toList.map Char.toLower)

/-- Drop the first n characters, computable by structural recursion. -/
def strDrop (s : String) (n : Nat) : String := .mk (s.toList.drop n)

/-- `str.split()` (split on whitespace runs), computable by structural
recursion. -/
def strSplitWS (s : String) : List String :=
  ((s.toList.splitOnP Char.isWhitespace).filter (fun w => ¬ w.isEmpty)).map
    (fun w => String.mk w)

/-- Python truthiness of an optional string: `None` and `""` are falsy. -/
def strTruthy : Option String → Bool
  | none => false
  | some s => s ≠ ""

/-- clear_html.lxml_utils.str_has_content: `bool(text and text.strip())`. -/
def str_has_content (t : Option String) : Bool :=
  match t with
  | none => false
  | some s => strTrim s ≠ ""

/-- clear_html.lxml_utils.has_text. -/
def has_text (n : HNode) : Bool := str_has_content n.text

/-- clear_html.lxml_utils.has_tail. -/
def has_tail (n : HNode) : Bool := str_has_content n.tail

/-- Python `(dst or "") + s`: append onto an optional string. -/
def orAppend (dst : Option String) (s : String) : Option String :=
  some (dst.getD "" ++ s)

/-- Replace the element at index `i` (no-op when out of range). -/
def modifyAt (l : List HNode) (i : Nat) (f : HNode → HNode) : List HNode :=
  match l, i with
  | [], _ => []
  | x :: xs, 0 => f x :: xs
  | x :: xs, Nat.succ j => x :: modifyAt xs j f

/-- Python `list.insert(i, x)` for in-range `i` (appends when `i ≥ length`,
like Python). -/
def insertAt (l : List HNode) (i : Nat) (x : HNode) : List HNode :=
  match l, i with
  | l, 0 => x :: l
  | [], _ => [x]
  | y :: ys, Nat.succ j => y :: insertAt ys j x

/-- lxml `HtmlElement.drop_tag` applied to the child at index `i` of
`parent`: merge the child's text into the preceding text position, merge its
tail into its last child (or the preceding text position), then splice its
children in place of it. -/
def dropTagAt (parent : HNode) (i : Nat) : HNode :=
  match parent.children.get? i with
  | none => parent
  | some c =>
    -- step 1: merge c.text
    let cs1 : List HNode × Option String :=
      if strTruthy c.text then
        if i = 0 then (parent.children, orAppend parent.text (c.text.getD ""))
        else (modifyAt parent.children (i - 1)
                (fun p => p.withTail (orAppend p.tail (c.text.getD ""))), parent.text)
      else (parent.children, parent.text)
    -- step 2: merge c.tail (into c's last child if c has children)
    let cNew : HNode :=
      if strTruthy c.tail ∧ ¬ c.children.isEmpty then
        c.withChildren (modifyAt c.children (c.children.length - 1)
          (fun lastc => lastc.withTail (orAppend lastc.tail (c.tail.getD ""))))
      else c
    let cs2 : List HNode × Option String :=
      if strTruthy c.tail ∧ c.children.isEmpty then
        if i = 0 then (cs1.1, orAppend cs1.2 (c.tail.getD ""))
        else (modifyAt cs1.1 (i - 1)
                (fun p => p.withTail (orAppend p.tail (c.tail.getD ""))), cs1.2)
      else cs1
    -- step 3: splice the (possibly updated) children of c in place of c
    (parent.withText cs2.2).withChildren
      (cs2.1.take i ++ cNew.children ++ cs2.1.drop (i + 1))

/-- lxml `HtmlElement.drop_tree` applied to the child at index `i` of
`parent`: merge the child's tail into the preceding text position and remove
the whole subtree. -/
def dropTreeAt (parent : HNode) (i : Nat) : HNode :=
  match parent.children.get? i with
  | none => parent
  | some c =>
    let merged : List HNode × Option String :=
      if strTruthy c.tail then
        if i = 0 then (parent.children, orAppend parent.text (c.tail.getD ""))
        else (modifyAt parent.children (i - 1)
                (fun p => p.withTail (orAppend p.tail (c.tail.getD ""))), parent.text)
      else (parent.children, parent.text)
    (parent.withText merged.2).withChildren
      (merged.1.take i ++ merged.1.drop (i + 1))

/-! ## Vocabulary sets (clear_html/formatted_text/defs.py)

Python frozensets are modelled as string lists used only through
membership. -/

def ALLOWED_ATTRIBUTES : List String :=
  ["alt", "cite", "colspan", "datetime", "dir", "href", "label", "rowspan",
   "src", "srcset", "sizes", "start", "title", "type", "value", "vspace"]

def CAN_HAVE_TEXT_TAGS : List String :=
  ["a", "p", "h1", "h2", "h3", "h4", "h5", "h6", "aside", "blockquote",
   "code", "pre", "li", "td", "dt", "dd", "b", "strong", "i", "em", "u",
   "sup", "sub", "s", "figcaption", "cite"]

def TOP_LEVEL_TAGS : List String :=
  ["p", "h1", "h2", "h3", "h4", "h5", "h6", "figure", "aside", "blockquote",
   "code", "pre", "ul", "ol", "table", "dl"]

def INLINE_TAGS : List String :=
  ["br", "strong", "em", "u", "sup", "sub", "a", "s", "cite"]

def FIGURE_CONTENT_TAGS : List String :=
  ["img", "video", "audio", "iframe", "embed", "object"]

/-- Source: `FIGURE_CONTENT_TAGS | {"figcation"}` — the `"figcation"` typo is
in the source and is reproduced as-is. -/
def WRAPPED_WITH_FIGURE : List String := FIGURE_CONTENT_TAGS ++ ["figcation"]

def EMBEDDING_TAGS : List String :=
  ["video", "audio", "source", "iframe", "embed", "object"]

def TABLE_TAGS : List String :=
  ["table", "thead", "tfoot", "tbody", "th", "tr", "td"]

def DEF_LIST_TAGS : List String := ["dl", "dt", "dd"]

def LIST_TAGS : List String := ["ul", "ol", "li"]

def CAN_BE_EMPTY : List String :=
  ["img", "br", "dt", "dd", "td"] ++ EMBEDDING_TAGS

def TRANSPARENT_CONTENT : List String := ["a"]

def ALLOWED_TAGS : List String :=
  CAN_HAVE_TEXT_TAGS ++ TOP_LEVEL_TAGS ++ INLINE_TAGS ++ WRAPPED_WITH_FIGURE ++
  TABLE_TAGS ++ DEF_LIST_TAGS ++ LIST_TAGS ++ EMBEDDING_TAGS

def FIGURE_CAPTION_ALLOWED_TAGS : List String :=
  ["figcaption", "a", "p", "b", "i"] ++ INLINE_TAGS

/-- `MUST_ANCESTORS_FOR_KEEP_CONTENT` as an association list
(tag → set of required ancestor tags). -/
def MUST_ANCESTORS_FOR_KEEP_CONTENT : List (String × List String) :=
  [("li", ["ul", "ol"]),
   ("thead", ["table"]), ("tfoot", ["table"]), ("tbody", ["table"]),
   ("th", ["table"]), ("tr", ["table"]), ("td", ["table"]),
   ("dt", ["dl"]), ("dd", ["dl"])]

/-- `MUST_ANCESTORS_FOR_KEEP_CONTENT_REVERSED`: the Python dict comprehension
iterates the sorted items (dd, dt, li, tbody, td, tfoot, th, thead, tr) and
keeps the last write per root tag, yielding exactly this mapping. -/
def MUST_ANCESTORS_FOR_KEEP_CONTENT_REVERSED : List (String × String) :=
  [("dl", "dt"), ("ol", "li"), ("ul", "li"), ("table", "tr")]

def MUST_ANCESTORS_FOR_DROP_CONTENT : List (String × List String) :=
  [("figcaption", ["figure"])]

/-- Modelled from the spec: `lxml.html.defs.special_inline_tags` (the HTML4
inline additions the source unions into its HTML5 phrasing set); lxml itself
is an external collaborator and not part of src/. -/
def special_inline_tags : List String :=
  ["a", "applet", "basefont", "bdo", "br", "embed", "font", "iframe", "img",
   "map", "area", "object", "param", "q", "script", "span", "sub", "sup"]

def PHRASING_CONTENT : List String :=
  ["a", "abbr", "audio", "b", "bdi", "bdo", "br", "button", "canvas", "cite",
   "code", "data", "datalist", "del", "dfn", "em", "embed", "i", "iframe",
   "img", "input", "ins", "kbd", "label", "link", "map", "mark", "math",
   "meta", "meter", "noscript", "object", "output", "picture", "progress",
   "q", "ruby", "s", "samp", "script", "select", "slot", "small", "span",
   "strong", "sub", "sup", "svg", "template", "textarea", "time", "u", "var",
   "video", "wbr"] ++ special_inline_tags

/-- Modelled from the spec: `lxml.html.defs.tags`, the set of all HTML tags
known to lxml (union of its per-category tag sets); lxml is an external
collaborator and not part of src/. -/
def lxml_defs_tags : List String :=
  ["html", "head", "body", "frameset",
   "base", "isindex", "link", "meta", "script", "style", "title",
   "address", "blockquote", "center", "del", "div", "h1", "h2", "h3", "h4",
   "h5", "h6", "hr", "ins", "noscript", "p", "pre",
   "dir", "dl", "dt", "dd", "li", "menu", "ol", "ul",
   "table", "caption", "colgroup", "col", "thead", "tfoot", "tbody", "tr",
   "td", "th",
   "form", "button", "fieldset", "input", "label", "legend", "optgroup",
   "option", "select", "textarea",
   "abbr", "acronym", "cite", "code", "dfn", "em", "kbd", "samp", "strong",
   "var",
   "b", "big", "i", "s", "small", "strike", "tt", "u",
   "frame", "noframes", "iframe",
   "blink", "marquee",
   "article", "aside", "audio", "canvas", "command", "datalist", "details",
   "figcaption", "figure", "footer", "header", "hgroup", "keygen", "mark",
   "math", "meter", "nav", "output", "progress", "rp", "rt", "ruby",
   "section", "source", "summary", "svg", "time", "track", "video", "wbr"]
  ++ special_inline_tags

def HTML_UNIVERSE_TAGS : List String :=
  lxml_defs_tags ++ PHRASING_CONTENT ++ ALLOWED_TAGS

def TAG_TRANSLATIONS : List (String × String) :=
  [("b", "strong"), ("i", "em"), ("tt", "code")]

def CONTENT_EVEN_IF_EMPTY : List String := ["img"] ++ EMBEDDING_TAGS

/-- html_embeddings.ALL_WHITELISTING_CLASSES. -/
def ALL_WHITELISTING_CLASSES : List String :=
  ["instagram-media", "twitter-tweet", "twitter-timeline", "twitter-moment",
   "fb-post", "fb-video", "fb-comment-embed"]

/-! ## Traversals -/

mutual

/-- Every node of the tree, the root included (pre-order). -/
def allNodes : HNode → List HNode
  | .elem i t a tx cs tl => .elem i t a tx cs tl :: allNodesL cs

def allNodesL : List HNode → List HNode
  | [] => []
  | c :: cs => allNodes c ++ allNodesL cs

end

mutual

/-- clear_html.lxml_utils.iter_deep_first_post_order (children before
parent, the node itself last). -/
def iter_deep_first_post_order : HNode → List HNode
  | .elem i t a tx cs tl => postOrderL cs ++ [.elem i t a tx cs tl]

def postOrderL : List HNode → List HNode
  | [] => []
  | c :: cs => iter_deep_first_post_order c ++ postOrderL cs

end

mutual

/-- Does the subtree contain a node with the given id? -/
def containsId : HNode → Nat → Bool
  | .elem i _ _ _ cs _, tid => i = tid || containsIdL cs tid

def containsIdL : List HNode → Nat → Bool
  | [], _ => false
  | c :: cs, tid => containsId c tid || containsIdL cs tid

end

/-- Index of the first direct child with the given id. -/
def findChildIdx (cs : List HNode) (tid : Nat) : Option Nat :=
  go cs 0
where
  go : List HNode → Nat → Option Nat
    | [], _ => none
    | c :: cs, k => if c.idOf = tid then some k else go cs (k + 1)

mutual

/-- Apply a parent-level operation `f parent idx` at the parent of the first
node (in document order) carrying the given id.  This models the Python
pattern of calling a mutating helper on a node found by object identity. -/
def applyAtParentOf : HNode → Nat → (HNode → Nat → HNode) → HNode
  | .elem i t a tx cs tl, tid, f =>
    match findChildIdx cs tid with
    | some j => f (.elem i t a tx cs tl) j
    | none => .elem i t a tx (applyAtParentOfL cs tid f) tl

def applyAtParentOfL : List HNode → Nat → (HNode → Nat → HNode) → List HNode
  | [], _, _ => []
  | c :: rest, tid, f =>
    if containsId c tid then applyAtParentOf c tid f :: rest
    else c :: applyAtParentOfL rest tid f

end

mutual

/-- Path (list of child indices) from the root to the first node with the
given id; `some []` when the root itself has the id. -/
def pathToId : HNode → Nat → Option (List Nat)
  | .elem i _ _ _ cs _, tid => if i = tid then some [] else pathToIdL cs tid 0

def pathToIdL : List HNode → Nat → Nat → Option (List Nat)
  | [], _, _ => none
  | c :: cs, tid, k =>
    match pathToId c tid with
    | some p => some (k :: p)
    | none => pathToIdL cs tid (k + 1)

end

/-- Subtree at a path of child indices. -/
def atPath : HNode → List Nat → Option HNode
  | t, [] => some t
  | .elem _ _ _ _ cs _, i :: rest =>
    match cs.get? i with
    | some c => atPath c rest
    | none => none

/-! ## clear_html/lxml_utils.py and formatted_text/utils.py primitives -/

/-- Attribute lookup (`el.get(name)`). -/
def getAttr (n : HNode) (name : String) : Option String :=
  (n.attrs.find? (fun p => p.1 = name)).map (fun p => p.2)

/-- Attribute update (`el.set(name, v)`): update in place when present,
append otherwise. -/
def setAttr (n : HNode) (name v : String) : HNode :=
  if (n.attrs.find? (fun p => p.1 = name)).isSome then
    n.withAttrs (n.attrs.map (fun p => if p.1 = name then (p.1, v) else p))
  else n.withAttrs (n.attrs ++ [(name, v)])

/-- Attribute deletion (`del el.attrib[name]`). -/
def delAttr (n : HNode) (name : String) : HNode :=
  n.withAttrs (n.attrs.filter (fun p => p.1 ≠ name))

/-- formatted_text.utils.is_phrasing_content: phrasing tags plus any tag the
module does not know. -/
def is_phrasing_content (n : HNode) : Bool :=
  PHRASING_CONTENT.contains n.tag || ¬ HTML_UNIVERSE_TAGS.contains n.tag

/-- clear_html.lxml_utils.prev_text for the child at index `i` of `parent`:
parent text for the first child, previous sibling's tail otherwise
(`or ""`). -/
def prev_text_at (parent : HNode) (i : Nat) : String :=
  (if i = 0 then parent.text
   else (parent.children.get? (i - 1)).bind HNode.tail).getD ""

/-- formatted_text.utils._double_br: true iff `doc[start]`, `doc[end]` are a
double br (`end - start == 1`, in bounds, both br, no tail between). -/
def double_br (doc : HNode) (s e : Int) : Bool :=
  let len : Int := doc.children.length
  if e - s ≠ 1 then false
  else if ¬ (0 ≤ s ∧ s < len ∧ 0 ≤ e ∧ e < len) then false
  else
    (((doc.children.get? s.toNat).map HNode.tag).getD "" = "br")
    ∧ (((doc.children.get? e.toNat).map HNode.tag).getD "" = "br")
    ∧ ¬ (((doc.children.get? s.toNat).map has_tail).getD false)

/-- drop_tag_preserve_spacing: `prev_is_inline` — the previous sibling is
phrasing content and not already preceded by a double br. -/
def dtps_prev_is_inline (parent : HNode) (i : Nat) : Bool :=
  (i != 0)
  && PHRASING_CONTENT.contains
      ((((parent.children.get? (i-1)).map HNode.tag)).getD "")
  && (! double_br parent ((i : Int) - 2) ((i : Int) - 1))

/-- drop_tag_preserve_spacing: `after_is_inline` — the next sibling is
phrasing content and not already followed by a double br. -/
def dtps_after_is_inline (parent : HNode) (i : Nat) : Bool :=
  (i != parent.children.length - 1)
  && PHRASING_CONTENT.contains
      ((((parent.children.get? (i+1)).map HNode.tag)).getD "")
  && (! double_br parent ((i : Int) + 1) ((i : Int) + 2))

/-- drop_tag_preserve_spacing: `has_text_prev`. -/
def dtps_has_text_prev (parent : HNode) (i : Nat) : Bool :=
  (strTrim (prev_text_at parent i) != "") || dtps_prev_is_inline parent i

/-- drop_tag_preserve_spacing: `has_text_inside`. -/
def dtps_has_text_inside (c : HNode) (preserve : Bool) : Bool :=
  preserve && (has_text c || (! c.children.isEmpty))

/-- drop_tag_preserve_spacing: `has_text_after`. -/
def dtps_has_text_after (parent : HNode) (i : Nat) (c : HNode) : Bool :=
  has_tail c || dtps_after_is_inline parent i

/-- formatted_text.utils.drop_tag_preserve_spacing for the child at index
`i` of `parent` (the non-root case; the source's early return on the root is
in `drop_tag_preserve_spacing`).  For a block child it first inserts double
br separators according to the surrounding-text booleans, then unwraps
(`drop_tag`) or deletes (`drop_tree`) the child. -/
def dropTagPreserveSpacingAt (parent : HNode) (i : Nat) (preserve : Bool) :
    HNode :=
  match parent.children.get? i with
  | none => parent
  | some c =>
    if is_phrasing_content c then
      if preserve then dropTagAt parent i else dropTreeAt parent i
    else
      let cs := parent.children
      -- insert double br before
      let st1 : HNode × Nat :=
        if dtps_has_text_prev parent i
            && (dtps_has_text_inside c preserve
                || dtps_has_text_after parent i c) then
          (parent.withChildren
            (insertAt (insertAt cs i (HNode.newElem "br")) i (HNode.newElem "br")),
           i + 2)
        else (parent, i)
      -- insert brs after, transferring the tail to the last inserted br
      let st2 : HNode × Nat :=
        if dtps_has_text_inside c preserve && dtps_has_text_after parent i c then
          let last_br := (HNode.newElem "br").withTail c.tail
          let p1 := st1.1.withChildren
            (modifyAt st1.1.children st1.2 (fun d => d.withTail none))
          (p1.withChildren
            (insertAt (insertAt p1.children (st1.2 + 1) last_br) (st1.2 + 1)
              (HNode.newElem "br")),
           st1.2)
        else st1
      if preserve then dropTagAt st2.1 st2.2 else dropTreeAt st2.1 st2.2

/-- formatted_text.utils.drop_tag_preserve_spacing on the node at `path`
under `root`; the empty path is the root, which cannot be removed
(no-op). -/
def drop_tag_preserve_spacing (root : HNode) (path : List Nat)
    (preserve : Bool := true) : HNode :=
  match path with
  | [] => root
  | [i] => dropTagPreserveSpacingAt root i preserve
  | i :: rest =>
    root.withChildren
      (modifyAt root.children i (fun c => drop_tag_preserve_spacing c rest preserve))

/-- drop_tag_preserve_spacing on the (first) node with the given id. -/
def dropTagById (root : HNode) (tid : Nat) (preserve : Bool) : HNode :=
  applyAtParentOf root tid (fun p j => dropTagPreserveSpacingAt p j preserve)

/-- clear_html.lxml_utils.wrap_element_with_tag for a parentless node (used
by set_article_tag_as_root): the wrapper takes over the node's tail. -/
def wrapRootWithTag (doc : HNode) (tag : String) : HNode :=
  ((HNode.newElem tag).withTail doc.tail).withChildren [doc.withTail none]

/-- clear_html.lxml_utils.wrap_element_with_tag for the child at index `i`
of `parent`. -/
def wrapChildWithTagAt (parent : HNode) (i : Nat) (tag : String) : HNode :=
  parent.withChildren
    (modifyAt parent.children i (fun c => wrapRootWithTag c tag))

/-- clear_html.lxml_utils.wrap_element_content_with_tag: move all children
and the leading text of the node into a new single child. -/
def wrap_element_content_with_tag (doc : HNode) (tag : String) : HNode :=
  let wrapper := ((HNode.newElem tag).withChildren doc.children).withText doc.text
  (doc.withText none).withChildren [wrapper]

/-- clear_html.lxml_utils.wrap_children_slice on `parent[start:end)`: the new
element takes the tail of the last moved child. -/
def wrapChildrenSliceAt (parent : HNode) (start stop : Nat) (tag : String) :
    HNode :=
  let cs := parent.children
  let lastTail := (cs.get? (stop - 1)).bind HNode.tail
  let content := modifyAt ((cs.take stop).drop start) (stop - 1 - start)
    (fun c => c.withTail none)
  let new_tag := ((HNode.newElem tag).withTail lastTail).withChildren content
  parent.withChildren (cs.take start ++ [new_tag] ++ cs.drop stop)

mutual

/-- formatted_text.utils.is_empty: tag formed only of empty tags;
`special` tags count as content even when empty. -/
def is_empty (t : HNode) (special : List String) : Bool :=
  match t with
  | .elem _ tg _ tx cs _ =>
    (¬ special.contains tg) && is_emptyL cs special && ¬ str_has_content tx

def is_emptyL : List HNode → List String → Bool
  | [], _ => true
  | c :: cs, special =>
    (is_empty c special && ¬ has_tail c) && is_emptyL cs special

end

/-- formatted_text.utils.has_no_content. -/
def has_no_content (t : HNode) : Bool := is_empty t CONTENT_EVEN_IF_EMPTY

/-! ## Tree height (fuel for by-identity folds) -/

mutual

def heightH : HNode → Nat
  | .elem _ _ _ _ cs _ => heightL cs + 1

def heightL : List HNode → Nat
  | [] => 0
  | c :: cs => max (heightH c) (heightL cs)

end

/-! ## formatted_text/utils.py passes -/

mutual

/-- formatted_text.utils.translate_tags: rename tags through
TAG_TRANSLATIONS, skipping whitelisted nodes.  The source iterates
`doc.iter()` renaming in place; the renamings are independent, so a
recursive map is equivalent. -/
def translate_tags (wl : List Nat) : HNode → HNode
  | .elem i t a tx cs tl =>
    let t' :=
      if wl.contains i then t
      else ((TAG_TRANSLATIONS.find? (fun p => p.1 = t)).map (fun p => p.2)).getD t
    .elem i t' a tx (translate_tagsL wl cs) tl

def translate_tagsL (wl : List Nat) : List HNode → List HNode
  | [] => []
  | c :: cs => translate_tags wl c :: translate_tagsL wl cs

end

mutual

/-- formatted_text.utils.remove_empty_tags (the `_root=True` entry point:
the node itself is never dropped, its subtree is pruned). -/
def remove_empty_tags (wl : List String) : HNode → HNode
  | .elem i t a tx cs tl =>
    let r := removeEmptyL wl cs tx
    .elem i t a r.2 r.1 tl

/-- Children loop of remove_empty_tags: each child is recursively cleaned
and then dropped when `tag ∉ wl ∧ no children ∧ no text`; `lxml.drop_tag`
on a childless element merges its truthy text and tail into the preceding
text position, which is the second component being threaded (the parent's
text before the first kept child, the previous kept child's tail after). -/
def removeEmptyL (wl : List String) :
    List HNode → Option String → (List HNode × Option String)
  | [], tx => ([], tx)
  | c :: rest, tx =>
    let c' := remove_empty_tags wl c
    if (! wl.contains c'.tag) && c'.children.isEmpty && (! has_text c') then
      let tx1 := if strTruthy c'.text then orAppend tx (c'.text.getD "") else tx
      let tx2 := if strTruthy c'.tail then orAppend tx1 (c'.tail.getD "") else tx1
      removeEmptyL wl rest tx2
    else
      let r := removeEmptyL wl rest c'.tail
      (c'.withTail r.2 :: r.1, tx)

end

/-- formatted_text.utils.set_article_tag_as_root. -/
def set_article_tag_as_root (doc : HNode) : HNode :=
  if ALLOWED_TAGS.contains doc.tag then wrapRootWithTag doc "article"
  else (doc.withTag "article").withAttrs []

mutual

def killTagH (tag : String) : HNode → HNode
  | .elem i tg a tx cs tl =>
    if tg = tag then .elem i tg a none [] tl
    else .elem i tg a tx (killTagL tag cs) tl

def killTagL (tag : String) : List HNode → List HNode
  | [] => []
  | c :: cs => killTagH tag c :: killTagL tag cs

end

/-- formatted_text.utils.kill_tag_content clears text and children of every
descendant with the given tag (`doc.xpath(".//tag")`: strict descendants). -/
def kill_tag_content (doc : HNode) (tag : String) : HNode :=
  doc.withChildren (killTagL tag doc.children)

/-! ## formatted_text/headings.py -/

/-- Heading level of a tag (the xpath in headings_nodes matches exactly
h1..h6). -/
def headingLevel? : String → Option Nat
  | "h1" => some 1
  | "h2" => some 2
  | "h3" => some 3
  | "h4" => some 4
  | "h5" => some 5
  | "h6" => some 6
  | _ => none

/-- formatted_text.headings.min_heading: minimum heading level among the
descendants of the root (`doc.xpath(".//*...")`), default 1. -/
def min_heading (doc : HNode) : Nat :=
  (((allNodesL doc.children).filterMap (fun n => headingLevel? n.tag)).min?).getD 1

mutual

/-- Per-node transformation of normalize_headings_level with precomputed
minimum `m`: rename `h<k>` (k ≤ 5) to `h<k - m + 2>`; turn `h6` into `p`
with its content wrapped in a new `strong` child; skip whitelisted nodes;
recurse everywhere.  The source renames the members of a precomputed xpath
snapshot in place; the per-node updates are independent, so the recursive
map is equivalent. -/
def normH (m : Nat) (wl : List Nat) : HNode → HNode
  | .elem i tg a tx cs tl =>
    match headingLevel? tg with
    | none => .elem i tg a tx (normHL m wl cs) tl
    | some k =>
      if wl.contains i then .elem i tg a tx (normHL m wl cs) tl
      else if tg ≠ "h6" then
        .elem i ("h" ++ toString (k - m + 2)) a tx (normHL m wl cs) tl
      else
        .elem i "p" a none
          [((HNode.newElem "strong").withText tx).withChildren (normHL m wl cs)] tl

def normHL (m : Nat) (wl : List Nat) : List HNode → List HNode
  | [] => []
  | c :: cs => normH m wl c :: normHL m wl cs

end

/-- formatted_text.headings.normalize_headings_level: the xpath snapshot
contains only strict descendants of the root, so the root node itself is
never renamed. -/
def normalize_headings_level (doc : HNode) (wl : List Nat) : HNode :=
  doc.withChildren (normHL (min_heading doc) wl doc.children)

/-! ## formatted_text/utils.py clean_incomplete_structures -/

/-- Children loop of _clean_incomplete_structures, processing the original
children of `parent` (by identity snapshot `ids`): each child first has its
own subtree processed (the `recurse` argument), and is then unwrapped
(drop_tag_preserve_spacing) when its tag requires an ancestor that is not
present in the running ancestor-tag set. -/
def cisFoldGo (rules : List (String × List String)) (preserve : Bool)
    (recurse : List String → HNode → HNode) (wl : List Nat)
    (anc : List String) : HNode → List Nat → HNode
  | parent, [] => parent
  | parent, id :: rest =>
    match findChildIdx parent.children id with
    | none => cisFoldGo rules preserve recurse wl anc parent rest
    | some j =>
      match parent.children.get? j with
      | none => cisFoldGo rules preserve recurse wl anc parent rest
      | some c =>
        let ancC := anc ++ [c.tag]
        let c' := recurse ancC c
        let parent' := parent.withChildren
          (modifyAt parent.children j (fun _ => c'))
        let doDrop : Bool :=
          match (rules.find? (fun r => r.1 = c.tag)).map (fun r => r.2) with
          | none => false
          | some req => (! ancC.any (fun a => req.contains a)) && (! wl.contains id)
        let next : HNode :=
          cond doDrop (dropTagPreserveSpacingAt parent' j preserve) parent'
        cisFoldGo rules preserve recurse wl anc next rest

/-- See cisFoldGo; `fuel` bounds the tree depth, and the recursive descent
into a child runs with an EMPTY white list, reproducing the source's call
at utils.py:406 which omits the `white_list` argument. -/
def cisFold (fuel : Nat) (rules : List (String × List String))
    (preserve : Bool) (wl : List Nat) (anc : List String) (parent : HNode)
    (ids : List Nat) : HNode :=
  match fuel with
  | 0 => parent
  | fuel' + 1 =>
    cisFoldGo rules preserve
      (fun ancC c => cisFold fuel' rules preserve [] ancC c
        (c.children.map HNode.idOf))
      wl anc parent ids

/-- formatted_text.utils.clean_incomplete_structures.  Note that only the
top-level children are checked against the caller's `white_list`; deeper
levels run with an empty white list (see cisFold). -/
def clean_incomplete_structures (doc : HNode)
    (rules : List (String × List String)) (preserve : Bool := true)
    (wl : List Nat := []) : HNode :=
  cisFold (heightH doc) rules preserve wl [doc.tag] doc
    (doc.children.map HNode.idOf)

/-! ## Path utilities -/

/-- Replace the subtree at a path of child indices by applying `f` to it. -/
def updateAtPath (t : HNode) : List Nat → (HNode → HNode) → HNode
  | [], f => f t
  | i :: rest, f =>
    t.withChildren (modifyAt t.children i (fun c => updateAtPath c rest f))

/-- Tags of the ancestors of the node at `path`, nearest first, the root
included — clear_html.lxml_utils.ancestors with `stop_at` the root. -/
def ancestorTagsOf (root : HNode) (path : List Nat) : List String :=
  ((List.range path.length).map
    (fun k => atPath root (path.take (path.length - 1 - k)))).filterMap
    (fun o => o.map HNode.tag)

/-! ## lxml.html.clean.Cleaner (BodyCleaner) -/

/-- Modelled from the spec: the element kinds dropped wholesale by the base
`lxml.html.clean.Cleaner` call with the options BodyCleaner passes (scripts,
style, meta, links, frames); lxml is an external collaborator and not part
of src/.  Comments and processing instructions have no representation in
the tree model. -/
def BASE_KILL_TAGS : List String :=
  ["script", "style", "meta", "link", "frame", "frameset", "noframes"]

/-- Modelled from the spec: attribute scrubbing of the base Cleaner call —
`inline_style` removes `style` attributes, `javascript` removes `href`/`src`
attributes carrying `javascript:` URIs. -/
def baseCleanAttrs (a : List (String × String)) : List (String × String) :=
  (a.filter (fun p => p.1 ≠ "style")).filter
    (fun p => ¬ ((p.1 = "href" ∨ p.1 = "src")
                 ∧ strStartsWith (strToLower (strTrim p.2)) "javascript:"))

mutual

/-- Modelled from the spec: the base `Cleaner.__call__` pass (§4.2 of the
spec): drop `script`/`style`/`meta`/`link`/frame subtrees (whitelisted nodes
are spared through `BodyCleaner.allow_element`), drop `style` attributes and
`javascript:` URLs.  The root element itself is never killed (the pipeline
never passes a killable root). -/
def baseCleanNode (wl : List Nat) : HNode → HNode
  | .elem i t a tx cs tl =>
    let r := baseCleanL wl cs tx
    .elem i t (baseCleanAttrs a) r.2 r.1 tl

def baseCleanL (wl : List Nat) :
    List HNode → Option String → (List HNode × Option String)
  | [], tx => ([], tx)
  | c :: rest, tx =>
    if BASE_KILL_TAGS.contains c.tag && (! wl.contains c.idOf) then
      -- drop_tree: the tail joins the preceding text position
      let tx' := if strTruthy c.tail then orAppend tx (c.tail.getD "") else tx
      baseCleanL wl rest tx'
    else
      let c' := baseCleanNode wl c
      let r := baseCleanL wl rest c'.tail
      (c'.withTail r.2 :: r.1, tx)

end

mutual

/-- BodyCleaner.__call__ attribute filtering (formatted_text/cleaner.py):
for every non-whitelisted element keep an attribute iff it is `data-*` or
belongs to the safe set. -/
def attrFilterNode (safe : List String) (wl : List Nat) : HNode → HNode
  | .elem i t a tx cs tl =>
    let a' :=
      if wl.contains i then a
      else a.filter (fun p => strStartsWith p.1 "data-" || safe.contains p.1)
    .elem i t a' tx (attrFilterL safe wl cs) tl

def attrFilterL (safe : List String) (wl : List Nat) : List HNode → List HNode
  | [] => []
  | c :: cs => attrFilterNode safe wl c :: attrFilterL safe wl cs

end

/-- BodyCleaner.__call__ (formatted_text/cleaner.py): base Cleaner pass,
then safe-attribute filtering, then removal of tags outside `allow_tags` in
post-order with drop_tag_preserve_spacing; a disallowed root is renamed to
`div` with cleared attributes instead of being removed. -/
def bodyCleanerCall (allowTags safeAttrs : List String) (wl : List Nat)
    (doc : HNode) : HNode :=
  let d1 := baseCleanNode wl doc
  let d2 := attrFilterNode safeAttrs wl d1
  let bad : HNode → Bool :=
    fun n => (! allowTags.contains n.tag) && (! wl.contains n.idOf)
  let toRemove := (iter_deep_first_post_order d2).filter bad
  -- the root is the last node in post-order: `to_remove[-1] is doc`
  let rootBad := bad d2
  let d3 := if rootBad then (d2.withTag "div").withAttrs [] else d2
  let rem := if rootBad then toRemove.dropLast else toRemove
  rem.foldl (fun acc n => dropTagById acc n.idOf true) d3

/-- main._get_default_cleaner followed by `clean(doc)`. -/
def default_cleaner_call (wl : List Nat) (doc : HNode) : HNode :=
  bodyCleanerCall ALLOWED_TAGS ALLOWED_ATTRIBUTES wl doc

/-! ## formatted_text/figures.py -/

mutual

/-- figures.infer_img_url_from_data_src_attr body for a subtree:
fill a missing/empty `src` from a truthy `data-src` on img tags. -/
def inferImgH : HNode → HNode
  | .elem i t a tx cs tl =>
    let n : HNode := .elem i t a tx (inferImgL cs) tl
    if t = "img" && (! strTruthy (getAttr n "src"))
        && strTruthy (getAttr n "data-src") then
      setAttr n "src" ((getAttr n "data-src").getD "")
    else n

def inferImgL : List HNode → List HNode
  | [] => []
  | c :: cs => inferImgH c :: inferImgL cs

end

/-- figures.infer_img_url_from_data_src_attr (`doc.iterfind(".//img")`:
strict descendants). -/
def infer_img_url_from_data_src_attr (doc : HNode) : HNode :=
  doc.withChildren (inferImgL doc.children)

/-- figures.top_level_media_within_figure's is_single_tag. -/
def is_single_tag (el : HNode) : Bool :=
  el.children.length = 1 && (! has_text el)
    && (! ((el.children.head?.map has_tail).getD false))

/-- figures.top_level_media_within_figure: rename to `figure` every
non-whitelisted top-level `p` whose single content is a media element,
possibly wrapped in a single `a`. -/
def top_level_media_within_figure (doc : HNode) (wl : List Nat) : HNode :=
  doc.withChildren (doc.children.map (fun child =>
    if child.tag = "p" && is_single_tag child && (! wl.contains child.idOf) then
      match child.children.head? with
      | none => child
      | some p_child =>
        if FIGURE_CONTENT_TAGS.contains p_child.tag then child.withTag "figure"
        else if p_child.tag = "a" && is_single_tag p_child then
          match p_child.children.head? with
          | some a_child =>
            if FIGURE_CONTENT_TAGS.contains a_child.tag then
              child.withTag "figure"
            else child
          | none => child
        else child
    else child))

/-- formatted_text.utils.find_previous_non_empty_sibling: scan left from
`idx - 1`, skipping siblings that carry a tail or no content.  The Nat
argument is one past the candidate index. -/
def fpnes (parent : HNode) : Nat → Option Nat
  | 0 => none
  | c + 1 =>
    match parent.children.get? c with
    | none => none
    | some s =>
      if has_tail s || has_no_content s then fpnes parent c else some c

/-- A children slice `node[start:stop]`, the node given by its path. -/
structure CSlice where
  nodePath : List Nat
  start : Nat
  stop : Nat
deriving Repr

/-- formatted_text.utils.group_with_previous_content_block, operating on the
reversed path of the target node (deepest index first; an empty path is the
root, which has no parent). -/
def gwpcbRev (root : HNode) : List Nat → Option CSlice
  | [] => none
  | i :: restRev =>
    let parentPath := restRev.reverse
    match atPath root parentPath with
    | none => none
    | some parent =>
      match parent.children.get? i with
      | none => none
      | some doc =>
        match fpnes parent i with
        | some first => some ⟨parentPath, first, i + 1⟩
        | none =>
          if parent.children.length = 1 && (! has_text parent)
              && (! has_tail doc) then
            gwpcbRev root restRev
          else none

def group_with_previous_content_block (root : HNode) (path : List Nat) :
    Option CSlice :=
  gwpcbRev root path.reverse

/-- First run of consecutive figcaption children (no intervening tails):
returns (start?, end); the loop of figures.fuse_figcaptions. -/
def fuseRun (cs : List HNode) : Option Nat × Nat :=
  go cs 0 none none 0
where
  go : List HNode → Nat → Option HNode → Option Nat → Nat →
      Option Nat × Nat
    | [], _, _, st, e => (st, e)
    | c :: rest, idx, _prev, none, e =>
      if c.tag = "figcaption" then go rest (idx + 1) (some c) (some idx) (idx + 1)
      else go rest (idx + 1) (some c) none e
    | c :: rest, idx, prev, some s, e =>
      if c.tag = "figcaption" && (! ((prev.map has_tail).getD false)) then
        go rest (idx + 1) (some c) (some s) (idx + 1)
      else (some s, e)

/-- Drop (by drop_tag_preserve_spacing) the direct child of `parent` with
the given id. -/
def dropChildById (parent : HNode) (tid : Nat) (preserve : Bool) : HNode :=
  match findChildIdx parent.children tid with
  | some j => dropTagPreserveSpacingAt parent j preserve
  | none => parent

/-- figures.fuse_figcaptions: fuse the first run of consecutive figcaptions
and delete every figcaption after it. -/
def fuse_figcaptions (figure : HNode) : HNode :=
  let se := fuseRun figure.children
  -- drop figcaptions after the run, in reverse document order
  let lateIds := (((figure.children.drop se.2).filter
    (fun c => c.tag = "figcaption")).map HNode.idOf).reverse
  let fig1 := lateIds.foldl (fun f tid => dropChildById f tid false) figure
  match se.1 with
  | some s =>
    if se.2 - s > 1 then
      let fig2 := wrapChildrenSliceAt fig1 s se.2 "figcaption"
      -- for child in new_figcaption: drop_tag_preserve_spacing(child)
      fig2.withChildren (modifyAt fig2.children s (fun w =>
        (w.children.map HNode.idOf).foldl
          (fun acc tid => dropChildById acc tid true) w))
    else fig1
  | none => fig1

/-- Structure-dissolving rename of figures.create_figures_from_isolated_figcaptions:
walk the ancestors of the caption nearest-first and rename the first one
whose tag is a key of MUST_ANCESTORS_FOR_KEEP_CONTENT_REVERSED to its
image. -/
def dissolveStructure (root : HNode) (capPath : List Nat) : HNode :=
  go (List.range capPath.length)
where
  go : List Nat → HNode
    | [] => root
    | k :: ks =>
      let pfx := capPath.take (capPath.length - 1 - k)
      match atPath root pfx with
      | none => go ks
      | some anc =>
        match (MUST_ANCESTORS_FOR_KEEP_CONTENT_REVERSED.find?
            (fun p => p.1 = anc.tag)).map (fun p => p.2) with
        | some newTag => updateAtPath root pfx (fun n => n.withTag newTag)
        | none => go ks

/-- One iteration of the loop of
figures.create_figures_from_isolated_figcaptions for the figcaption with id
`capId`.  A caption that is no longer in the tree (detached by an earlier
iteration) is skipped: the Python code would mutate a detached subtree,
which does not affect the result. -/
def cfifStep (root : HNode) (capId : Nat) : HNode :=
  match pathToId root capId with
  | none => root
  | some path =>
    match group_with_previous_content_block root path with
    | none => root
    | some sl =>
      match atPath root sl.nodePath with
      | none => root
      | some slNode =>
        match slNode.children.get? sl.start with
        | none => root
        | some prev_content_node =>
          let ancTags := ancestorTagsOf root path
          let prev_content_is_paragraph :=
            prev_content_node.tag = "p"
            && (! (allNodesL prev_content_node.children).any
                  (fun n => FIGURE_CONTENT_TAGS.contains n.tag))
          if ancTags.contains "figure" || prev_content_is_paragraph then root
          else
            let root1 :=
              if ["table", "tbody", "thead", "tfoot", "dl", "ul", "ol"].contains
                  slNode.tag
              then dissolveStructure root path else root
            let root2 := updateAtPath root1 sl.nodePath
              (fun p => wrapChildrenSliceAt p sl.start sl.stop "figure")
            -- the new figure sits at sl.nodePath ++ [sl.start]; unwrap the
            -- figures nested inside it, then fuse its figcaptions
            updateAtPath root2 (sl.nodePath ++ [sl.start]) (fun fig =>
              let innerIds := (((allNodesL fig.children).filter
                (fun n => n.tag = "figure")).map HNode.idOf)
              let fig1 := innerIds.foldl
                (fun f tid => dropTagById f tid true) fig
              fuse_figcaptions fig1)

/-- figures.create_figures_from_isolated_figcaptions: iterate over the
document-order snapshot of figcaption descendants. -/
def create_figures_from_isolated_figcaptions (node : HNode) : HNode :=
  (((allNodesL node.children).filter
    (fun n => n.tag = "figcaption")).map HNode.idOf).foldl cfifStep node

/-- figures.remove_figures_without_content: delete figures whose only
children are figcaptions, with no text and no tail on the first child. -/
def remove_figures_without_content (doc : HNode) : HNode :=
  (((allNodesL doc.children).filter
    (fun n => n.tag = "figure")).map HNode.idOf).foldl step doc
where
  step (acc : HNode) (tid : Nat) : HNode :=
    match pathToId acc tid with
    | none => acc
    | some [] => acc
    | some path =>
      match atPath acc path with
      | none => acc
      | some figure =>
        let non_figcaption := figure.children.filter
          (fun c => c.tag ≠ "figcaption")
        let with_tail := (! figure.children.isEmpty)
          && ((figure.children.head?.map has_tail).getD false)
        if non_figcaption.isEmpty && (! has_text figure) && (! with_tail) then
          drop_tag_preserve_spacing acc path false
        else acc

/-- figures.clean_double_br_above_figcaption: remove the two `br` siblings
immediately above a figcaption when neither carries a tail. -/
def clean_double_br_above_figcaption (doc : HNode) : HNode :=
  (((allNodesL doc.children).filter
    (fun n => n.tag = "figcaption")).map HNode.idOf).foldl step doc
where
  step (acc : HNode) (tid : Nat) : HNode :=
    match pathToId acc tid with
    | none => acc
    | some [] => acc
    | some path =>
      let parentPath := path.dropLast
      match path.getLast? with
      | none => acc
      | some idx =>
        updateAtPath acc parentPath (fun parent =>
          let sib1 := parent.children.get? (idx - 1)
          let sib2 := parent.children.get? (idx - 2)
          if idx ≥ 2
              && ((sib1.map (fun s => s.tag = "br" && ! has_tail s)).getD false)
              && ((sib2.map (fun s => s.tag = "br" && ! has_tail s)).getD false)
          then dropTreeAt (dropTreeAt parent (idx - 1)) (idx - 2)
          else parent)

/-- figures._get_figure_caption_cleaner applied to every figcaption
(figures.clean_figcaptions_html). -/
def clean_figcaptions_html (node : HNode) : HNode :=
  (((allNodesL node.children).filter
    (fun n => n.tag = "figcaption")).map HNode.idOf).foldl step node
where
  step (acc : HNode) (tid : Nat) : HNode :=
    match pathToId acc tid with
    | none => acc
    | some path =>
      updateAtPath acc path
        (fun cap => bodyCleanerCall FIGURE_CAPTION_ALLOWED_TAGS
          ALLOWED_ATTRIBUTES [] cap)

/-! ## formatted_text/main.py: paragraphy -/

/-- Python list index semantics (negative indices count from the end). -/
def pyListIdx (len : Nat) (j : Int) : Option Nat :=
  let j' := if j < 0 then j + len else j
  if 0 ≤ j' ∧ j' < (len : Int) then some j'.toNat else none

/-- Python `s and s.lstrip()` on an optional string. -/
def pyAndLstrip : Option String → Option String
  | none => none
  | some s => if s = "" then some "" else some (strTrimLeft s)

/-- Python `s and s.rstrip()` on an optional string. -/
def pyAndRstrip : Option String → Option String
  | none => none
  | some s => if s = "" then some "" else some (strTrimRight s)

/-- The br-sequence detection loop of main.paragraphy: maximal runs of two
or more consecutive br children with no intervening tail text. -/
def brSequences (cs : List HNode) : List (Nat × Nat) :=
  let n := cs.length
  let step := fun (st : Option Nat × List (Nat × Nat)) (idx : Nat) =>
    match cs.get? idx with
    | none => st
    | some child =>
      if child.tag = "br" then
        let prevBrNoTail := (idx ≠ 0 : Bool)
          && (((cs.get? (idx - 1)).map
                (fun p => p.tag = "br" && (! has_tail p))).getD false)
        -- a br without previous consecutive br starts a sequence
        let s1 := if ! prevBrNoTail then some idx else st.1
        -- a br without next consecutive br ends a sequence
        let isEnd := (idx = n - 1 : Bool)
          || (((cs.get? (idx + 1)).map (fun nx => nx.tag != "br")).getD true)
          || has_tail child
        if isEnd then
          match s1 with
          | some s =>
            if s = idx then (none, st.2) else (none, st.2 ++ [(s, idx)])
          | none => (none, st.2)
        else (s1, st.2)
      else st
  ((List.range n).foldl step (none, [])).2

/-- force_split flags: true for children inside a br sequence. -/
def forceSplitFlags (cs : List HNode) : List Bool :=
  let seqs := brSequences cs
  (List.range cs.length).map (fun i => seqs.any (fun se => se.1 ≤ i ∧ i ≤ se.2))

/-- State of the chunking loop of main.paragraphy.  `out` holds the items
appended to the emptied doc: `Sum.inl j` is the original child at index `j`
of the working copy `arr` (whose tails the flushes may clear), `Sum.inr p`
is a constructed paragraph. -/
structure PState where
  arr : List HNode
  out : List (Sum Nat HNode)
  docText : Option String
  includeRoot : Bool
  chunk : List Nat

/-- main.paragraphy.push_accumulated_content_as_p at position `idx`. -/
def pushAccum (st : PState) (idx : Nat) : PState :=
  let chunkVals := st.chunk.filterMap (fun j => st.arr.get? j)
  let p0 := (HNode.newElem "p").withChildren chunkVals
  let r : Option String × PState :=
    if st.includeRoot then
      (pyAndLstrip st.docText,
       { st with docText := none, includeRoot := false })
    else
      let j : Int := (idx : Int) - st.chunk.length - 1
      match pyListIdx st.arr.length j with
      | none => (none, st)
      | some k =>
        let tl := (st.arr.get? k).bind HNode.tail
        (pyAndRstrip tl,
         { st with arr := modifyAt st.arr k (fun e => e.withTail none) })
  let p := p0.withText r.1
  let st2 := { r.2 with chunk := [] }
  if has_text p || p.children.length > 0 then
    { st2 with out := st2.out ++ [Sum.inr p] }
  else st2

/-- main.paragraphy: group phrasing-content runs among the root's children
into `p` elements, using double-br sequences as discarded separators. -/
def paragraphy (doc : HNode) : HNode :=
  let children := doc.children
  let n := children.length
  let flags := forceSplitFlags children
  let flagAt := fun (i : Nat) => (flags.get? i).getD false
  let init : PState := ⟨children, [], doc.text, true, []⟩
  let stepFn := fun (st : PState) (idx : Nat) =>
    match children.get? idx with
    | none => st
    | some el =>
      if PHRASING_CONTENT.contains el.tag && (! flagAt idx) then
        { st with chunk := st.chunk ++ [idx] }
      else
        let st' := pushAccum st idx
        if ! flagAt idx then { st' with out := st'.out ++ [Sum.inl idx] }
        else st'
  let stF := pushAccum ((List.range n).foldl stepFn init) n
  (doc.withText stF.docText).withChildren
    (stF.out.map (fun o =>
      match o with
      | Sum.inl j => (stF.arr.get? j).getD (HNode.newElem "p")
      | Sum.inr p => p))

/-- main.almost_pretty_format: root text and every top-level tail become
a blank line; non-pre children are stripped at the edges. -/
def almost_pretty_format (doc : HNode) : HNode :=
  (doc.withText (some "\n\n")).withChildren (doc.children.map (fun child =>
    let c1 := child.withTail (some "\n\n")
    if c1.tag ≠ "pre" then
      let c2 := c1.withText (some (strTrimLeft (c1.text.getD "")))
      if c2.children.length > 0 then
        c2.withChildren (modifyAt c2.children (c2.children.length - 1)
          (fun lastc => lastc.withTail (some (strTrimRight (lastc.tail.getD "")))))
      else c2.withText (some (strTrimRight (strTrimLeft (c2.text.getD ""))))
    else c1))

/-! ## formatted_text/main.py: make_links_absolute -/

/-- Modelled from the spec: the attribute names reported by lxml's
`iterlinks` that the pipeline's inputs use (§4.9: "href, src, srcset, etc.,
as defined by the HTML parser's link iteration"); lxml is external and not
part of src/.  Each such attribute carries the whole link (pos 0), the
`<style>` text-link case is not represented in the model. -/
def LINK_ATTRS : List String := ["href", "src"]

/-- The snapshot of `doc.iterlinks()`: (node id, attribute name, link). -/
def collectLinks (doc : HNode) : List (Nat × String × String) :=
  (allNodes doc).flatMap (fun n =>
    (n.attrs.filter (fun p => LINK_ATTRS.contains p.1)).map
      (fun p => (n.idOf, p.1, p.2)))

mutual

/-- Update every node carrying the given id (unique in well-formed inputs)
with an id-preserving function — the model of mutating one element found by
identity. -/
def updateById (tid : Nat) (f : HNode → HNode) : HNode → HNode
  | .elem i t a tx cs tl =>
    let n : HNode := .elem i t a tx (updateByIdL tid f cs) tl
    if i = tid then f n else n

def updateByIdL (tid : Nat) (f : HNode → HNode) : List HNode → List HNode
  | [] => []
  | c :: cs => updateById tid f c :: updateByIdL tid f cs

end

mutual

/-- Attribute of the first node (document order) carrying the given id. -/
def getAttrById (tid : Nat) (name : String) : HNode → Option String
  | .elem i _ a _ cs _ =>
    if i = tid then
      ((a.find? (fun p => p.1 = name)).map (fun p => p.2))
    else getAttrByIdL tid name cs

def getAttrByIdL (tid : Nat) (name : String) : List HNode → Option String
  | [] => none
  | c :: cs =>
    if containsId c tid then getAttrById tid name c
    else getAttrByIdL tid name cs

end

/-- Python `unicodedata.category(c) == "Cc"` for the characters the retry
path strips (the C0/C1 control ranges). -/
def isCcChar (c : Char) : Bool :=
  c.toNat < 32 || (127 ≤ c.toNat && c.toNat < 160)

/-- One iteration of the main.make_links_absolute loop.  `urljoin b l =
none` models a ValueError from urljoin (skip), `setOk v = false` models a
ValueError from `el.set` (retry with control characters stripped, then give
up).  The `assert cur is not None` of the source is the `.error` case. -/
def linkStep (urljoin : String → String → Option String)
    (setOk : String → Bool) (base : String) (doc : HNode)
    (l : Nat × String × String) : Except String HNode :=
  match urljoin base (strTrim l.2.2) with
  | none => .ok doc
  | some new_link =>
    if new_link = l.2.2 then .ok doc
    else
      match getAttrById l.1 l.2.1 doc with
      | none => .error "assert cur is not None"
      | some cur =>
        let new :=
          if cur.length = l.2.2.length then new_link
          else new_link ++ strDrop cur l.2.2.length
        if setOk new then
          .ok (updateById l.1 (fun n => setAttr n l.2.1 new) doc)
        else
          let new2 := String.mk (new.toList.filter (fun c => ! isCcChar c))
          if setOk new2 then
            .ok (updateById l.1 (fun n => setAttr n l.2.1 new2) doc)
          else .ok doc

/-- main.make_links_absolute over the modelled iterlinks snapshot. -/
def make_links_absoluteChecked (urljoin : String → String → Option String)
    (setOk : String → Bool) (base : String) (doc : HNode) :
    Except String HNode :=
  (collectLinks doc).foldlM (linkStep urljoin setOk base) doc

/-! ## clear_html/html_embeddings.py -/

/-- lxml `element.classes`: the whitespace-separated class attribute. -/
def getClasses (n : HNode) : List String :=
  strSplitWS ((getAttr n "class").getD "")

/-- html_embeddings.integrate_embeddings (without preprocessor): ids of
every node having a whitelisted class, together with all ids of their
subtrees. -/
def integrate_embeddings (doc : HNode) : List Nat :=
  ((allNodes doc).filter (fun n =>
    (getClasses n).any (fun c => ALL_WHITELISTING_CLASSES.contains c))).foldl
    (fun acc n => acc ++ (allNodes n).map HNode.idOf) []

/-! ## formatted_text/main.py: clean_doc, and clear_html/clean.py -/

/-- The pipeline of main.clean_doc after link absolutization. -/
def clean_doc_rest (wl : List Nat) (doc : HNode) : HNode :=
  let d1 := infer_img_url_from_data_src_attr doc
  let d2 := translate_tags wl d1
  let d3 := remove_empty_tags CAN_BE_EMPTY d2
  let d4 := default_cleaner_call wl d3
  let d5 := set_article_tag_as_root d4
  let d6 := normalize_headings_level d5 wl
  let d7 := create_figures_from_isolated_figcaptions d6
  let d8 := remove_figures_without_content d7
  let d9 := clean_incomplete_structures d8 MUST_ANCESTORS_FOR_KEEP_CONTENT true wl
  let d10 := clean_incomplete_structures d9 MUST_ANCESTORS_FOR_DROP_CONTENT false wl
  let d11 := clean_double_br_above_figcaption d10
  let d12 := clean_figcaptions_html d11
  let d13 := kill_tag_content d12 "iframe"
  let d14 := paragraphy d13
  let d15 := top_level_media_within_figure d14 wl
  almost_pretty_format d15

/-- main.clean_doc with the two external URL oracles of
make_links_absolute; the only error case is the assert inside
make_links_absolute. -/
def clean_docChecked (urljoin : String → String → Option String)
    (setOk : String → Bool) (doc : HNode) (base : Option String)
    (wl : List Nat) : Except String HNode := do
  let d0 ← match base with
    | some b => make_links_absoluteChecked urljoin setOk b doc
    | none => pure doc
  pure (clean_doc_rest wl d0)

/-- clean.clean_node with the URL oracles: compute the embed whitelist,
then run clean_doc (the deep copy of the source is implicit in the
functional model). -/
def clean_nodeChecked (urljoin : String → String → Option String)
    (setOk : String → Bool) (node : HNode) (url : Option String) :
    Except String HNode :=
  clean_docChecked urljoin setOk node url (integrate_embeddings node)

/-- clean.clean_node, with the error case (an unreachable assert) falling
back to the input. -/
def clean_node (urljoin : String → String → Option String)
    (setOk : String → Bool) (node : HNode) (url : Option String) : HNode :=
  match clean_nodeChecked urljoin setOk node url with
  | .ok r => r
  | .error _ => node

/-- clean_node without a base url: make_links_absolute is skipped, so the
oracles are irrelevant. -/
def clean_node_nourl (node : HNode) : HNode :=
  clean_node (fun _ _ => none) (fun _ => true) node none

/-! ## Serialization and structural equality -/

/-- Modelled from the spec: the serializer contract (§6): `br`, `img`, `hr`
serialize as void elements, empty containers as `<tag></tag>`; serialization
itself is an external collaborator. -/
def VOID_TAGS : List String := ["br", "img", "hr"]

mutual

def toHtml : HNode → String
  | .elem _ t a tx cs tl =>
    let attrsStr := a.foldl
      (fun acc p => acc ++ " " ++ p.1 ++ "=\x22" ++ p.2 ++ "\x22") ""
    if VOID_TAGS.contains t then
      "<" ++ t ++ attrsStr ++ ">" ++ tl.getD ""
    else
      "<" ++ t ++ attrsStr ++ ">" ++ tx.getD "" ++ toHtmlL cs ++ "</" ++ t
        ++ ">" ++ tl.getD ""

def toHtmlL : List HNode → String
  | [] => ""
  | c :: cs => toHtml c ++ toHtmlL cs

end

/-- clean.cleaned_node_to_html: serialize without the root's tail. -/
def cleaned_node_to_html (n : HNode) : String := toHtml (n.withTail none)

mutual

/-- Structural equality in the sense of §8's invariant 8: same tags,
attributes, text and tail strings everywhere (an absent string and the
empty string serialize identically and are identified); node ids are the
model's identity bookkeeping and are ignored. -/
def structEq : HNode → HNode → Bool
  | .elem _ t a tx cs tl, .elem _ t' a' tx' cs' tl' =>
    t = t' && a = a' && tx.getD "" = tx'.getD "" && tl.getD "" = tl'.getD ""
      && structEqL cs cs'

def structEqL : List HNode → List HNode → Bool
  | [], [] => true
  | c :: cs, c' :: cs' => structEq c c' && structEqL cs cs'
  | _, _ => false

end

/-! ## Small accessor lemmas -/

/-! ## Tag-vocabulary invariants -/

/-- Every node of the subtree has a tag satisfying `p`. -/
def tagsOk (p : String → Prop) (t : HNode) : Prop :=
  ∀ n ∈ allNodes t, p n.tag

/-- Every node of every subtree of the list has a tag satisfying `p`. -/
def tagsOkL (p : String → Prop) (cs : List HNode) : Prop :=
  ∀ n ∈ allNodesL cs, p n.tag

@[simp] theorem HNode.children_withChildren (cs : List HNode) (t : HNode) :
    (t.withChildren cs).children = cs := by cases t; rfl

@[simp] theorem HNode.tag_withChildren (cs : List HNode) (t : HNode) :
    (t.withChildren cs).tag = t.tag := by cases t; rfl

@[simp] theorem HNode.text_withChildren (cs : List HNode) (t : HNode) :
    (t.withChildren cs).text = t.text := by cases t; rfl

@[simp] theorem HNode.tail_withChildren (cs : List HNode) (t : HNode) :
    (t.withChildren cs).tail = t.tail := by cases t; rfl

@[simp] theorem HNode.idOf_withChildren (cs : List HNode) (t : HNode) :
    (t.withChildren cs).idOf = t.idOf := by cases t; rfl

@[simp] theorem HNode.attrs_withChildren (cs : List HNode) (t : HNode) :
    (t.withChildren cs).attrs = t.attrs := by cases t; rfl

@[simp] theorem HNode.tag_withTag (s : String) (t : HNode) :
    (t.withTag s).tag = s := by cases t; rfl

@[simp] theorem HNode.children_withTag (s : String) (t : HNode) :
    (t.withTag s).children = t.children := by cases t; rfl

@[simp] theorem HNode.text_withTag (s : String) (t : HNode) :
    (t.withTag s).text = t.text := by cases t; rfl

@[simp] theorem HNode.tail_withTag (s : String) (t : HNode) :
    (t.withTag s).tail = t.tail := by cases t; rfl

@[simp] theorem HNode.idOf_withTag (s : String) (t : HNode) :
    (t.withTag s).idOf = t.idOf := by cases t; rfl

@[simp] theorem HNode.attrs_withTag (s : String) (t : HNode) :
    (t.withTag s).attrs = t.attrs := by cases t; rfl

@[simp] theorem HNode.tag_withTail (s : Option String) (t : HNode) :
    (t.withTail s).tag = t.tag := by cases t; rfl

@[simp] theorem HNode.children_withTail (s : Option String) (t : HNode) :
    (t.withTail s).children = t.children := by cases t; rfl

@[simp] theorem HNode.text_withTail (s : Option String) (t : HNode) :
    (t.withTail s).text = t.text := by cases t; rfl

@[simp] theorem HNode.tail_withTail (s : Option String) (t : HNode) :
    (t.withTail s).tail = s := by cases t; rfl

@[simp] theorem HNode.idOf_withTail (s : Option String) (t : HNode) :
    (t.withTail s).idOf = t.idOf := by cases t; rfl

@[simp] theorem HNode.attrs_withTail (s : Option String) (t : HNode) :
    (t.withTail s).attrs = t.attrs := by cases t; rfl

@[simp] theorem HNode.tag_withText (s : Option String) (t : HNode) :
    (t.withText s).tag = t.tag := by cases t; rfl

@[simp] theorem HNode.children_withText (s : Option String) (t : HNode) :
    (t.withText s).children = t.children := by cases t; rfl

@[simp] theorem HNode.text_withText (s : Option String) (t : HNode) :
    (t.withText s).text = s := by cases t; rfl

@[simp] theorem HNode.tail_withText (s : Option String) (t : HNode) :
    (t.withText s).tail = t.tail := by cases t; rfl

@[simp] theorem HNode.idOf_withText (s : Option String) (t : HNode) :
    (t.withText s).idOf = t.idOf := by cases t; rfl

@[simp] theorem HNode.attrs_withText (s : Option String) (t : HNode) :
    (t.withText s).attrs = t.attrs := by cases t; rfl

@[simp] theorem HNode.tag_withAttrs (a : List (String × String)) (t : HNode) :
    (t.withAttrs a).tag = t.tag := by cases t; rfl

@[simp] theorem HNode.children_withAttrs (a : List (String × String)) (t : HNode) :
    (t.withAttrs a).children = t.children := by cases t; rfl

@[simp] theorem HNode.idOf_withAttrs (a : List (String × String)) (t : HNode) :
    (t.withAttrs a).idOf = t.idOf := by cases t; rfl

@[simp] theorem HNode.attrs_withAttrs (a : List (String × String)) (t : HNode) :
    (t.withAttrs a).attrs = a := by cases t; rfl

@[simp] theorem HNode.text_withAttrs (a : List (String × String)) (t : HNode) :
    (t.withAttrs a).text = t.text := by cases t; rfl

@[simp] theorem HNode.tail_withAttrs (a : List (String × String)) (t : HNode) :
    (t.withAttrs a).tail = t.tail := by cases t; rfl

/-! ## Concrete input trees for the scenario claims

The trees are the lxml parses of the HTML fragments named in the claims;
ids are arbitrary distinct positive numbers (created nodes use id 0). -/

/-- Scenario S1 input:
div[style=color=blue] > (div "paragraph1", div "paragraph2"). -/
def s1Input : HNode :=
  .elem 1 "div" [("style", "color=blue")] none
    [.elem 2 "div" [] (some "paragraph1") [] none,
     .elem 3 "div" [] (some "paragraph2") [] none] none

/-- Scenario S4 paragraphizer input:
article > "h" br br "e" br br "l" br "lo" (text in tails). -/
def s4Input : HNode :=
  .elem 1 "article" [] (some "h")
    [.elem 2 "br" [] none [] none,
     .elem 3 "br" [] none [] (some "e"),
     .elem 4 "br" [] none [] none,
     .elem 5 "br" [] none [] (some "l"),
     .elem 6 "br" [] none [] (some "lo")] none

/-- Idempotence counterexample input: div > (h1 "a", h5 "b"). -/
def idemInput : HNode :=
  .elem 1 "div" [] none
    [.elem 2 "h1" [] (some "a") [] none,
     .elem 3 "h5" [] (some "b") [] none] none

/-- Whitelist-bug input for the incomplete-structure cleaner:
article > div.twitter-tweet > li "item"; the whitelist closure of the
embed is the id set {2, 3}. -/
def wlBugDoc : HNode :=
  .elem 1 "article" [] none
    [.elem 2 "div" [("class", "twitter-tweet")] none
      [.elem 3 "li" [] (some "item") [] none] none] none

/-- Heading-invariant counterexample input:
div > (div.twitter-tweet > h1 "tweet", p "x"). -/
def h1EmbedInput : HNode :=
  .elem 1 "div" [] none
    [.elem 2 "div" [("class", "twitter-tweet")] none
      [.elem 3 "h1" [] (some "tweet") [] none] none,
     .elem 4 "p" [] (some "x") [] none] none

/-! ## Claim theorems -/

/-- C3: the full pipeline on the S1 fragment
`<div style="color=blue"><div>paragraph1</div><div>paragraph2</div></div>`
serializes to exactly
`<article>\n\n<p>paragraph1</p>\n\n<p>paragraph2</p>\n\n</article>`. -/
theorem C3_end_to_end_S1 :
    cleaned_node_to_html (clean_node_nourl s1Input) =
      "<article>\n\n<p>paragraph1</p>\n\n<p>paragraph2</p>\n\n</article>" := by
  rfl

/-- C8: the paragraphizer on `<article>h<br><br>e<br><br>l<br>lo</article>`
yields `<article><p>h</p><p>e</p><p>l<br>lo</p></article>`: double-br runs
split paragraphs and are discarded, a single br stays inside its
paragraph. -/
theorem C8_paragraphy_S4 :
    toHtml (paragraphy s4Input) =
      "<article><p>h</p><p>e</p><p>l<br>lo</p></article>"
    ∧ paragraphy s4Input =
      .elem 1 "article" [] none
        [.elem 0 "p" [] (some "h") [] none,
         .elem 0 "p" [] (some "e") [] none,
         .elem 0 "p" [] (some "l") [.elem 6 "br" [] none [] (some "lo")] none]
        none := by
  exact ⟨rfl, rfl⟩

/-- C2 counterexample: on `<div><h1>a</h1><h5>b</h5></div>` the pipeline is
not idempotent — the first clean yields an `h6` (`h5` rescaled by `m = 1`),
which the second clean rewrites into `<p><strong>`. -/
theorem C2_counterexample_not_idempotent :
    structEq (clean_node_nourl (clean_node_nourl idemInput))
      (clean_node_nourl idemInput) = false
    ∧ cleaned_node_to_html (clean_node_nourl idemInput) =
        "<article>\n\n<h2>a</h2>\n\n<h6>b</h6>\n\n</article>"
    ∧ cleaned_node_to_html (clean_node_nourl (clean_node_nourl idemInput)) =
        "<article>\n\n<h2>a</h2>\n\n<p><strong>b</strong></p>\n\n</article>" := by
  exact ⟨rfl, rfl, rfl⟩

/-- C2 amended: cleaning is not idempotent in general (see the
counterexample; re-cleaning can also rescale headings whenever a
content-deleting pass removed the heading that realised the document
minimum, so even an h6-free output is no guarantee).  On the scenario-S1
input the pipeline is idempotent: the second clean returns a tree
structurally equal to the first clean's output, and both serialize to the
identical whitespace-exact string. -/
theorem C2_amended_idempotent_on_S1 :
    structEq (clean_node_nourl (clean_node_nourl s1Input))
      (clean_node_nourl s1Input) = true
    ∧ cleaned_node_to_html (clean_node_nourl (clean_node_nourl s1Input)) =
        "<article>\n\n<p>paragraph1</p>\n\n<p>paragraph2</p>\n\n</article>"
    ∧ cleaned_node_to_html (clean_node_nourl s1Input) =
        "<article>\n\n<p>paragraph1</p>\n\n<p>paragraph2</p>\n\n</article>" := by
  exact ⟨rfl, rfl, rfl⟩

/-- C1: the incomplete-structure cleaner does not leave whitelisted nodes
untouched at depth ≥ 2: on `article > div.twitter-tweet > li` with the
whitelist {2, 3} (the embed closure), the whitelisted `li` (id 3) is
unwrapped, because the recursive call at utils.py:406 omits the
`white_list` argument — contradicting the function's own docstring
("Nodes in the white list are ignored"). -/
theorem C1_whitelisted_li_dropped :
    clean_incomplete_structures wlBugDoc MUST_ANCESTORS_FOR_KEEP_CONTENT
        true [2, 3] =
      .elem 1 "article" [] none
        [.elem 2 "div" [("class", "twitter-tweet")] (some "item") [] none]
        none
    ∧ containsId wlBugDoc 3 = true
    ∧ containsId (clean_incomplete_structures wlBugDoc
        MUST_ANCESTORS_FOR_KEEP_CONTENT true [2, 3]) 3 = false
    ∧ integrate_embeddings wlBugDoc = [2, 3] := by
  exact ⟨rfl, rfl, rfl, rfl⟩

/-- C6 counterexample: the cleaned output can contain `h1` — an `h1` inside
a whitelisted embed is skipped by the heading normalizer and survives the
whole pipeline (and the output's minimum heading level is then 1, not 2). -/
theorem C6_counterexample_h1_survives :
    (allNodes (clean_node_nourl h1EmbedInput)).any (fun n => n.tag = "h1")
      = true
    ∧ cleaned_node_to_html (clean_node_nourl h1EmbedInput) =
      "<article>\n\n<div class=\x22twitter-tweet\x22><h1>tweet</h1></div>\n\n<p>x</p>\n\n</article>" := by
  exact ⟨rfl, rfl⟩

/-- C10: the top-level media-to-figure pass promotes link-wrapped media:
a non-whitelisted top-level `p` whose sole child (no text in the p, no tail
on the child) is an `a` whose own sole child is a media element is renamed
to `figure`; a `p` with any text is left unchanged. -/
theorem C10_link_wrapped_media_promoted (doc : HNode) (wl : List Nat)
    (i : Nat) (c : HNode) (hc : doc.children.get? i = some c) :
    (∀ a m, c.tag = "p" → wl.contains c.idOf = false → c.children = [a] →
      has_text c = false → has_tail a = false →
      a.tag = "a" → a.children = [m] → has_text a = false →
      has_tail m = false → FIGURE_CONTENT_TAGS.contains m.tag = true →
      (top_level_media_within_figure doc wl).children.get? i =
        some (c.withTag "figure"))
    ∧ (has_text c = true →
      (top_level_media_within_figure doc wl).children.get? i = some c) := by
  constructor
  · intro a m hp hwl hch htext htaila ha hach hatext hmtail hm
    simp only [top_level_media_within_figure, HNode.children_withChildren,
      List.get?_map, hc, Option.map_some']
    have hwl' : c.idOf ∉ wl := by simpa using hwl
    have hm' : m.tag ∈ FIGURE_CONTENT_TAGS := by simpa using hm
    simp [is_single_tag, hp, hwl', hch, htext, htaila, ha, hach, hatext,
      hmtail, hm', FIGURE_CONTENT_TAGS]
    intro h1 h2 h3 h4 h5 h6
    simp [FIGURE_CONTENT_TAGS] at hm'
    tauto
  · intro htext
    simp only [top_level_media_within_figure, HNode.children_withChildren,
      List.get?_map, hc, Option.map_some']
    simp [is_single_tag, htext]

/-- Concrete input for the C10 witness: div > p > a > img. -/
def c10Doc : HNode :=
  .elem 1 "div" [] none
    [.elem 2 "p" [] none
      [.elem 3 "a" [] none
        [.elem 4 "img" [("src", "i.jpg")] none [] none] none] none] none

/-- Witness for C10: on the concrete tree the link-wrapped img gets its
paragraph renamed to figure. -/
theorem C10_link_wrapped_media_promoted_witness :
    (top_level_media_within_figure c10Doc []).children.get? 0 =
      some ((HNode.elem 2 "p" [] none
        [.elem 3 "a" [] none
          [.elem 4 "img" [("src", "i.jpg")] none [] none] none]
        none).withTag "figure") := by
  exact (C10_link_wrapped_media_promoted c10Doc [] 0 _ rfl).1 _ _
    rfl rfl rfl rfl rfl rfl rfl rfl rfl rfl

/-! ## C9 development: goodness invariant of remove_empty_tags -/

mutual

/-- After pruning, a tree is "good" when every node (itself included) is
whitelisted, has children, or has text. -/
def goodEmpty (wl : List String) : HNode → Bool
  | .elem _ tg _ tx cs _ =>
    (wl.contains tg || (! cs.isEmpty) || str_has_content tx)
      && goodEmptyL wl cs

def goodEmptyL (wl : List String) : List HNode → Bool
  | [] => true
  | c :: cs => goodEmpty wl c && goodEmptyL wl cs

end

theorem goodEmpty_withTail (wl : List String) (c : HNode) (s : Option String) :
    goodEmpty wl (c.withTail s) = goodEmpty wl c := by
  cases c; rfl

mutual

theorem goodEmpty_remove_children (wl : List String) (t : HNode) :
    goodEmptyL wl (remove_empty_tags wl t).children = true := by
  cases t with
  | elem i tg a tx cs tl =>
    simp only [remove_empty_tags, HNode.children]
    exact goodEmpty_removeL wl cs tx

theorem goodEmpty_removeL (wl : List String) (cs : List HNode)
    (tx : Option String) : goodEmptyL wl (removeEmptyL wl cs tx).1 = true := by
  cases cs with
  | nil => simp [removeEmptyL, goodEmptyL]
  | cons c rest =>
    simp only [removeEmptyL]
    by_cases hdrop :
        ((! wl.contains (remove_empty_tags wl c).tag)
          && (remove_empty_tags wl c).children.isEmpty
          && (! has_text (remove_empty_tags wl c))) = true
    · simp only [hdrop, if_true]
      exact goodEmpty_removeL wl rest _
    · simp only [hdrop, if_false, Bool.false_eq_true]
      simp only [goodEmptyL, Bool.and_eq_true]
      constructor
      · rw [goodEmpty_withTail]
        -- node-level clause from the negated drop condition, subtree
        -- goodness from the mutual lemma
        cases hc : remove_empty_tags wl c with
        | elem i' tg' a' tx' cs' tl' =>
          simp only [goodEmpty, Bool.and_eq_true]
          constructor
          · have h2 := hdrop
            rw [hc] at h2
            simp only [HNode.tag, HNode.children, has_text, HNode.text] at h2 ⊢
            revert h2
            cases wl.contains tg' <;> cases cs'.isEmpty
              <;> cases str_has_content tx' <;> simp
          · have := goodEmpty_remove_children wl c
            rw [hc] at this
            simpa using this
      · exact goodEmpty_removeL wl rest _
end

mutual

theorem goodEmpty_every_node (wl : List String) (t : HNode)
    (h : goodEmpty wl t = true) : ∀ n ∈ allNodes t,
    (wl.contains n.tag || (! n.children.isEmpty) || str_has_content n.text)
      = true := by
  cases t with
  | elem i tg a tx cs tl =>
    intro n hn
    simp only [allNodes, List.mem_cons] at hn
    simp only [goodEmpty, Bool.and_eq_true] at h
    rcases hn with rfl | hn
    · simpa using h.1
    · exact goodEmpty_every_nodeL wl cs h.2 n hn

theorem goodEmpty_every_nodeL (wl : List String) (cs : List HNode)
    (h : goodEmptyL wl cs = true) : ∀ n ∈ allNodesL cs,
    (wl.contains n.tag || (! n.children.isEmpty) || str_has_content n.text)
      = true := by
  cases cs with
  | nil => intro n hn; simp [allNodesL] at hn
  | cons c rest =>
    intro n hn
    simp only [allNodesL, List.mem_append] at hn
    simp only [goodEmptyL, Bool.and_eq_true] at h
    rcases hn with hn | hn
    · exact goodEmpty_every_node wl c h.1 n hn
    · exact goodEmpty_every_nodeL wl rest h.2 n hn

end

/-- C9: after the empty-tag pruner with the CAN_BE_EMPTY whitelist, every
non-root element left anywhere in the tree is whitelisted, or has children,
or has text — i.e. no prunable empty element survives, however deep, and
sibling removals do not shadow one another. -/
theorem C9_empty_pruner_complete (t n : HNode)
    (hmem : n ∈ allNodesL (remove_empty_tags CAN_BE_EMPTY t).children) :
    CAN_BE_EMPTY.contains n.tag = true ∨ n.children ≠ [] ∨ has_text n = true := by
  have h := goodEmpty_every_nodeL CAN_BE_EMPTY _
    (goodEmpty_remove_children CAN_BE_EMPTY t) n hmem
  rcases Bool.or_eq_true_iff.mp h with h1 | h2
  · rcases Bool.or_eq_true_iff.mp h1 with h1a | h1b
    · exact Or.inl h1a
    · refine Or.inr (Or.inl ?_)
      simpa [List.isEmpty_iff] using h1b
  · exact Or.inr (Or.inr h2)

/-- Concrete input for the C9 witness. -/
def c9Doc : HNode :=
  .elem 1 "div" [] none
    [.elem 2 "p" [] (some "x") [.elem 3 "em" [] none [] none] none] none

/-- Witness for C9: in the pruned concrete tree the surviving p node indeed
has text. -/
theorem C9_empty_pruner_complete_witness :
    CAN_BE_EMPTY.contains (HNode.elem 2 "p" [] (some "x") [] none).tag = true
    ∨ (HNode.elem 2 "p" [] (some "x") [] none).children ≠ []
    ∨ has_text (.elem 2 "p" [] (some "x") [] none) = true := by
  refine C9_empty_pruner_complete c9Doc _ ?_
  have he : allNodesL (remove_empty_tags CAN_BE_EMPTY c9Doc).children =
      [.elem 2 "p" [] (some "x") [] none] := rfl
  rw [he]
  exact List.mem_singleton.mpr rfl

/-! ## C7 development: list surgery lemmas -/

theorem HNode.withChildren_children (t : HNode) :
    t.withChildren t.children = t := by cases t; rfl

@[simp] theorem HNode.withChildren_withChildren (cs cs' : List HNode)
    (t : HNode) : (t.withChildren cs).withChildren cs' = t.withChildren cs' := by
  cases t; rfl

theorem insertAt_append (A B : List HNode) (x : HNode) :
    insertAt (A ++ B) A.length x = A ++ x :: B := by
  induction A with
  | nil => cases B <;> rfl
  | cons a A ih => simpa [insertAt] using ih

theorem insertAt_append_succ (A B : List HNode) (x y : HNode) :
    insertAt (A ++ y :: B) (A.length + 1) x = A ++ y :: x :: B := by
  have := insertAt_append (A ++ [y]) B x
  simpa using this

theorem modifyAt_append (A : List HNode) (c : HNode) (B : List HNode)
    (f : HNode → HNode) : modifyAt (A ++ c :: B) A.length f = A ++ f c :: B := by
  induction A with
  | nil => rfl
  | cons a A ih => simpa [modifyAt] using ih

theorem get?_append_cons (A : List HNode) (c : HNode) (B : List HNode) :
    (A ++ c :: B).get? A.length = some c := by
  induction A with
  | nil => rfl
  | cons a A ih => simpa using ih

theorem take_cons_drop_of_get? {l : List HNode} {i : Nat} {c : HNode}
    (h : l.get? i = some c) : l.take i ++ c :: l.drop (i + 1) = l := by
  induction l generalizing i with
  | nil => simp at h
  | cons a l ih =>
    cases i with
    | zero => simp_all
    | succ j =>
      simp only [List.get?] at h
      simpa using ih h

theorem length_take_of_get? {l : List HNode} {i : Nat} {c : HNode}
    (h : l.get? i = some c) : (l.take i).length = i := by
  induction l generalizing i with
  | nil => simp at h
  | cons a l ih =>
    cases i with
    | zero => simp
    | succ j =>
      simp only [List.get?] at h
      simpa using ih h

/-- Core shape of dropTagPreserveSpacingAt on a block child with the
sibling context made explicit. -/
theorem dtps_shape (parent : HNode) (A B : List HNode) (c : HNode)
    (preserve : Bool) (hchild : parent.children = A ++ c :: B)
    (hblock : is_phrasing_content c = false) :
    dropTagPreserveSpacingAt parent A.length preserve =
      (if preserve then dropTagAt else dropTreeAt)
        (parent.withChildren
          (A ++ (if dtps_has_text_prev parent A.length
                   && (dtps_has_text_inside c preserve
                       || dtps_has_text_after parent A.length c)
                 then [HNode.newElem "br", HNode.newElem "br"] else [])
             ++ (if dtps_has_text_inside c preserve
                   && dtps_has_text_after parent A.length c
                 then [c.withTail none, HNode.newElem "br",
                       (HNode.newElem "br").withTail c.tail]
                 else [c])
             ++ B))
        (A.length + (if dtps_has_text_prev parent A.length
                       && (dtps_has_text_inside c preserve
                           || dtps_has_text_after parent A.length c)
                     then 2 else 0)) := by
  have hget : parent.children.get? A.length = some c := by
    rw [hchild]; exact get?_append_cons A c B
  simp only [dropTagPreserveSpacingAt, hget, hblock, Bool.false_eq_true,
    if_false]
  cases hb1 : (dtps_has_text_prev parent A.length
      && (dtps_has_text_inside c preserve
          || dtps_has_text_after parent A.length c)) <;>
    cases hb2 : (dtps_has_text_inside c preserve
        && dtps_has_text_after parent A.length c) <;>
    simp only [hb1, hb2, Bool.false_eq_true, if_false, if_true]
  · -- no insertions
    rw [show A ++ ([] : List HNode) ++ [c] ++ B = parent.children from by
      simp [hchild]]
    rw [HNode.withChildren_children]
    cases preserve <;> simp
  · -- only the after insertion
    rw [hchild, modifyAt_append]
    simp only [HNode.children_withChildren]
    rw [insertAt_append_succ, insertAt_append_succ]
    cases preserve <;> simp
  · -- only the before insertion
    rw [hchild]
    rw [insertAt_append, insertAt_append]
    cases preserve <;> simp
  · -- both insertions
    rw [hchild]
    rw [insertAt_append, insertAt_append]
    simp only [HNode.children_withChildren]
    rw [show A ++ (HNode.newElem "br") :: (HNode.newElem "br") :: c :: B
        = (A ++ [HNode.newElem "br", HNode.newElem "br"]) ++ c :: B from by
      simp]
    rw [show A.length + 2
        = (A ++ [HNode.newElem "br", HNode.newElem "br"]).length from by simp]
    rw [modifyAt_append]
    rw [insertAt_append_succ, insertAt_append_succ]
    cases preserve <;> simp

/-- C7: drop-tag-preserve-spacing on a block (non-phrasing) child: two br
siblings are inserted immediately before the node exactly when
`has_text_prev ∧ (has_text_inside ∨ has_text_after)`, two br siblings are
inserted immediately after — the node's tail moving to the last inserted
br — exactly when `has_text_inside ∧ has_text_after`, after which the node
itself is unwrapped (`drop_tag`) or deleted (`drop_tree`); and the
operation is a no-op on the root. -/
theorem C7_block_drop_spacing :
    (∀ (root : HNode) (preserve : Bool),
        drop_tag_preserve_spacing root [] preserve = root)
    ∧ ∀ (parent : HNode) (i : Nat) (c : HNode) (preserve : Bool),
        parent.children.get? i = some c →
        is_phrasing_content c = false →
        dropTagPreserveSpacingAt parent i preserve =
          (if preserve then dropTagAt else dropTreeAt)
            (parent.withChildren
              (parent.children.take i
                ++ (if dtps_has_text_prev parent i
                      && (dtps_has_text_inside c preserve
                          || dtps_has_text_after parent i c)
                    then [HNode.newElem "br", HNode.newElem "br"] else [])
                ++ (if dtps_has_text_inside c preserve
                      && dtps_has_text_after parent i c
                    then [c.withTail none, HNode.newElem "br",
                          (HNode.newElem "br").withTail c.tail]
                    else [c])
                ++ parent.children.drop (i + 1)))
            (i + (if dtps_has_text_prev parent i
                    && (dtps_has_text_inside c preserve
                        || dtps_has_text_after parent i c) then 2 else 0)) := by
  constructor
  · intro root preserve; rfl
  · intro parent i c preserve hc hblock
    have hA := length_take_of_get? hc
    have h := dtps_shape parent (parent.children.take i)
      (parent.children.drop (i + 1)) c preserve
      (by rw [take_cons_drop_of_get? hc]) hblock
    rw [hA] at h
    exact h

/-- Witness for C7 at a concrete instance: dropping the block `p` between
text yields double brs on both sides (preserve_content = false keeps the
spacing, drops the content). -/
theorem C7_block_drop_spacing_witness :
    dropTagPreserveSpacingAt
        (.elem 1 "div" [] (some "pre")
          [.elem 2 "p" [] (some "text") [] (some "post")] none) 0 false =
      dropTreeAt
        ((HNode.elem 1 "div" [] (some "pre")
          [.elem 2 "p" [] (some "text") [] (some "post")] none).withChildren
          ([HNode.newElem "br", HNode.newElem "br"]
            ++ [HNode.elem 2 "p" [] (some "text") [] (some "post")]))
        2 := by
  have h := (C7_block_drop_spacing).2
    (.elem 1 "div" [] (some "pre")
      [.elem 2 "p" [] (some "text") [] (some "post")] none) 0
    (.elem 2 "p" [] (some "text") [] (some "post")) false rfl rfl
  simpa using h

/-! ## C5 development: heading normalization -/

theorem headingLevel?_cases (tg : String) (k : Nat)
    (h : headingLevel? tg = some k) :
    (tg = "h1" ∧ k = 1) ∨ (tg = "h2" ∧ k = 2) ∨ (tg = "h3" ∧ k = 3)
    ∨ (tg = "h4" ∧ k = 4) ∨ (tg = "h5" ∧ k = 5) ∨ (tg = "h6" ∧ k = 6) := by
  unfold headingLevel? at h
  split at h <;> simp_all

theorem normHL_get? (m : Nat) (wl : List Nat) (cs : List HNode) (j : Nat) :
    (normHL m wl cs)[j]? = (cs[j]?).map (normH m wl) := by
  induction cs generalizing j with
  | nil => simp [normHL]
  | cons c cs ih =>
    cases j with
    | zero => simp [normHL]
    | succ j' => simpa [normHL] using ih j'

/-- Path preservation of the per-node normalization under the condition
that no strict ancestor along the path is a non-whitelisted h6 (whose
children move into a new strong wrapper). -/
theorem atPath_normH (m : Nat) (wl : List Nat) :
    ∀ (rest : List Nat) (c n : HNode),
      atPath c rest = some n →
      (∀ q n', (∃ r, q ++ r = rest ∧ r ≠ []) → atPath c q = some n' →
        ¬(n'.tag = "h6" ∧ n'.idOf ∉ wl)) →
      atPath (normH m wl c) rest = some (normH m wl n) := by
  intro rest
  induction rest with
  | nil =>
    intro c n hp _
    simp only [atPath, Option.some.injEq] at hp
    subst hp
    simp [atPath]
  | cons j rest' ih =>
    intro c n hp hanc
    have hcself := hanc [] c ⟨j :: rest', rfl, by simp⟩ (by simp [atPath])
    cases c with
    | elem i tg a tx cs tl =>
      cases hj : cs[j]? with
      | none => simp [atPath, List.get?_eq_getElem?, hj] at hp
      | some c0 =>
        simp only [atPath, List.get?_eq_getElem?, hj] at hp
        have hsub : atPath (normH m wl c0) rest' = some (normH m wl n) := by
          refine ih c0 n hp ?_
          intro q n' hq hat
          obtain ⟨r, hqr, hr⟩ := hq
          refine hanc (j :: q) n' ⟨r, by simp [hqr], hr⟩ ?_
          simp only [atPath, List.get?_eq_getElem?, hj]
          exact hat
        -- unfold normH on the elem; only the h6 non-wl branch reshapes
        -- children, and it is excluded by hcself
        have hgoal : ∀ (a' : List (String × String)) (tg' : String)
            (tx' : Option String) (tl' : Option String),
            atPath (HNode.elem i tg' a' tx' (normHL m wl cs) tl')
              (j :: rest') = some (normH m wl n) := by
          intro a' tg' tx' tl'
          simp only [atPath, List.get?_eq_getElem?, normHL_get?, hj, Option.map_some']
          exact hsub
        cases hlev : headingLevel? tg with
        | none =>
          simp only [normH, hlev]
          exact hgoal a tg tx tl
        | some k =>
          by_cases hin : wl.contains i = true
          · simp only [normH, hlev, hin, if_true]
            exact hgoal a tg tx tl
          · have htg6 : tg ≠ "h6" := by
              intro h6
              exact hcself ⟨h6, by simpa using hin⟩
            simp only [normH, hlev, hin, Bool.false_eq_true, if_false]
            rw [if_pos htg6]
            exact hgoal a _ tx tl

mutual

theorem mem_allNodes_self (t : HNode) : t ∈ allNodes t := by
  cases t with
  | elem i tg a tx cs tl => simp [allNodes]

theorem mem_allNodesL_of_mem {c : HNode} {cs : List HNode} (h : c ∈ cs)
    {n : HNode} (hn : n ∈ allNodes c) : n ∈ allNodesL cs := by
  cases cs with
  | nil => cases h
  | cons d ds =>
    rcases List.mem_cons.mp h with rfl | h'
    · exact List.mem_append.mpr (Or.inl hn)
    · exact List.mem_append.mpr (Or.inr (mem_allNodesL_of_mem h' hn))

end

theorem mem_allNodes_of_atPath :
    ∀ (p : List Nat) (t n : HNode), atPath t p = some n → n ∈ allNodes t := by
  intro p
  induction p with
  | nil =>
    intro t n h
    simp only [atPath, Option.some.injEq] at h
    subst h
    exact mem_allNodes_self t
  | cons j rest ih =>
    intro t n h
    cases t with
    | elem i tg a tx cs tl =>
      cases hj : cs[j]? with
      | none => simp [atPath, List.get?_eq_getElem?, hj] at h
      | some c =>
        simp only [atPath, List.get?_eq_getElem?, hj] at h
        have hc : c ∈ cs := by
          have hj' : cs.get? j = some c := by simpa [List.get?_eq_getElem?] using hj
          exact List.get?_mem hj'
        have := ih c n h
        simp only [allNodes, List.mem_cons]
        exact Or.inr (mem_allNodesL_of_mem hc this)

theorem nat_foldl_min_le_init (as : List Nat) (a : Nat) :
    as.foldl Nat.min a ≤ a := by
  induction as generalizing a with
  | nil => simp
  | cons x xs ih =>
    calc (x :: xs).foldl Nat.min a = xs.foldl Nat.min (Nat.min a x) := rfl
    _ ≤ Nat.min a x := ih _
    _ ≤ a := Nat.min_le_left _ _

theorem nat_foldl_min_le_mem (as : List Nat) (a : Nat) :
    ∀ b ∈ as, as.foldl Nat.min a ≤ b := by
  induction as generalizing a with
  | nil => intro b hb; cases hb
  | cons x xs ih =>
    intro b hb
    rcases List.mem_cons.mp hb with rfl | hb'
    · calc (b :: xs).foldl Nat.min a = xs.foldl Nat.min (Nat.min a b) := rfl
      _ ≤ Nat.min a b := nat_foldl_min_le_init _ _
      _ ≤ b := Nat.min_le_right _ _
    · exact ih _ b hb'

theorem nat_min?_le {l : List Nat} {m : Nat} (hm : l.min? = some m) :
    ∀ a ∈ l, m ≤ a := by
  cases l with
  | nil => cases hm
  | cons x xs =>
    intro a ha
    have hm' : m = xs.foldl Nat.min x := by
      simpa [List.min?] using hm.symm
    subst hm'
    rcases List.mem_cons.mp ha with rfl | ha'
    · exact nat_foldl_min_le_init _ _
    · exact nat_foldl_min_le_mem _ _ _ ha'

/-- The document minimum is a lower bound for the level of any heading
among the root's descendants. -/
theorem min_heading_le (doc : HNode) (n : HNode) (k : Nat)
    (hmem : n ∈ allNodesL doc.children) (hk : headingLevel? n.tag = some k) :
    min_heading doc ≤ k := by
  have hkmem : k ∈ (allNodesL doc.children).filterMap
      (fun n => headingLevel? n.tag) :=
    List.mem_filterMap.mpr ⟨n, hmem, hk⟩
  unfold min_heading
  cases hmin : ((allNodesL doc.children).filterMap
      (fun n => headingLevel? n.tag)).min? with
  | none =>
    cases hl : (allNodesL doc.children).filterMap
        (fun n => headingLevel? n.tag) with
    | nil => rw [hl] at hkmem; cases hkmem
    | cons x xs => rw [hl] at hmin; cases hmin
  | some m =>
    simpa using nat_min?_le hmin k hkmem

/-- C5: the heading-normalizer rule.  With `m` the minimum heading level
among the document's headings (default 1), every non-whitelisted heading
`h<k>` with `k ≤ 5` is renamed to `h<k - m + 2>` (and `m ≤ k` always
holds), and every non-whitelisted `h6` is renamed to `p` with its whole
content moved into a single new `strong` child.  The path hypothesis `hanc`
excludes non-whitelisted `h6` strict ancestors, whose content is itself
relocated into a wrapper. -/
theorem C5_heading_rescale (doc : HNode) (wl : List Nat) (j : Nat)
    (rest : List Nat) (n : HNode) (k : Nat)
    (hpath : atPath doc (j :: rest) = some n)
    (hk : headingLevel? n.tag = some k)
    (hwl : wl.contains n.idOf = false)
    (hanc : ∀ q n', (∃ r, q ++ r = j :: rest ∧ r ≠ []) → q ≠ [] →
      atPath doc q = some n' → ¬(n'.tag = "h6" ∧ n'.idOf ∉ wl)) :
    (k ≤ 5 → ∃ n',
      atPath (normalize_headings_level doc wl) (j :: rest) = some n'
      ∧ n'.tag = "h" ++ toString (k - min_heading doc + 2)
      ∧ min_heading doc ≤ k
      ∧ n'.idOf = n.idOf ∧ n'.attrs = n.attrs ∧ n'.text = n.text
      ∧ n'.tail = n.tail
      ∧ n'.children = normHL (min_heading doc) wl n.children)
    ∧ (k = 6 → ∃ n' w,
      atPath (normalize_headings_level doc wl) (j :: rest) = some n'
      ∧ n'.tag = "p" ∧ n'.text = none ∧ n'.idOf = n.idOf
      ∧ n'.attrs = n.attrs ∧ n'.tail = n.tail
      ∧ n'.children = [w]
      ∧ w.tag = "strong" ∧ w.text = n.text ∧ w.attrs = [] ∧ w.tail = none
      ∧ w.children = normHL (min_heading doc) wl n.children) := by
  cases doc with
  | elem ri rtg ra rtx rcs rtl =>
    cases hj : rcs[j]? with
    | none => simp [atPath, List.get?_eq_getElem?, hj] at hpath
    | some c0 =>
      simp only [atPath, List.get?_eq_getElem?, hj] at hpath
      have hmem : n ∈ allNodesL rcs := by
        have hc0 : c0 ∈ rcs := by
          have hj' : rcs.get? j = some c0 := by
            simpa [List.get?_eq_getElem?] using hj
          exact List.get?_mem hj'
        exact mem_allNodesL_of_mem hc0 (mem_allNodes_of_atPath rest c0 n hpath)
      have hnorm : atPath
          (normH (min_heading (HNode.elem ri rtg ra rtx rcs rtl)) wl c0) rest
          = some (normH (min_heading (HNode.elem ri rtg ra rtx rcs rtl)) wl n) := by
        refine atPath_normH _ wl rest c0 n hpath ?_
        intro q n' hq hat
        obtain ⟨r, hqr, hr⟩ := hq
        refine hanc (j :: q) n' ⟨r, by simp [hqr], hr⟩ (by simp) ?_
        simp only [atPath, List.get?_eq_getElem?, hj]
        exact hat
      have hpathnorm : atPath
          (normalize_headings_level (HNode.elem ri rtg ra rtx rcs rtl) wl)
          (j :: rest)
          = some (normH (min_heading (HNode.elem ri rtg ra rtx rcs rtl)) wl n) := by
        simp only [normalize_headings_level, HNode.withChildren, HNode.children,
          atPath, List.get?_eq_getElem?, normHL_get?, hj, Option.map_some']
        exact hnorm
      set m := min_heading (HNode.elem ri rtg ra rtx rcs rtl) with hm
      have hmk : m ≤ k := min_heading_le _ n k hmem hk
      cases n with
      | elem i tg a tx cs tl =>
        simp only [HNode.tag] at hk
        simp only [HNode.idOf] at hwl
        constructor
        · intro hk5
          have htg6 : tg ≠ "h6" := by
            intro h6
            rcases headingLevel?_cases tg k hk with h | h | h | h | h | h <;>
              simp_all
          refine ⟨_, hpathnorm, ?_⟩
          simp only [normH, hk]
          rw [if_neg (by simpa using hwl), if_pos htg6]
          simp [hmk, HNode.tag, HNode.idOf, HNode.attrs, HNode.text,
            HNode.tail, HNode.children]
        · intro hk6
          subst hk6
          have htg6 : tg = "h6" := by
            rcases headingLevel?_cases tg 6 hk with h | h | h | h | h | h <;>
              simp_all
          refine ⟨_, ((HNode.newElem "strong").withText tx).withChildren
            (normHL m wl cs), hpathnorm, ?_⟩
          simp only [normH, hk]
          rw [if_neg (by simpa using hwl), if_neg (by simp [htg6])]
          simp [HNode.newElem, HNode.tag, HNode.idOf, HNode.attrs,
            HNode.text, HNode.tail, HNode.children]
          exact ⟨rfl, rfl, rfl, rfl, rfl⟩

/-- Concrete input for the C5 witness: article > (h1 "t", h6 "s"). -/
def c5Doc : HNode :=
  .elem 1 "article" [] none
    [.elem 2 "h1" [] (some "t") [] none,
     .elem 3 "h6" [] (some "s") [] none] none

/-- Witness for C5: in the concrete document (minimum level 1) the h1 at
path [0] is renamed to h2 with its content intact. -/
theorem C5_heading_rescale_witness :
    ∃ n', atPath (normalize_headings_level c5Doc []) [0] = some n'
      ∧ n'.tag = "h" ++ toString (1 - min_heading c5Doc + 2)
      ∧ min_heading c5Doc ≤ 1
      ∧ n'.idOf = 2 ∧ n'.attrs = [] ∧ n'.text = some "t" ∧ n'.tail = none
      ∧ n'.children = normHL (min_heading c5Doc) [] [] := by
  have h := (C5_heading_rescale c5Doc [] 0 [] (.elem 2 "h1" [] (some "t") [] none)
    1 (by simp [c5Doc, atPath]) rfl rfl ?_).1 (by decide)
  · simpa using h
  · intro q n' hq hqne hat
    obtain ⟨r, hqr, hr⟩ := hq
    cases q with
    | nil => exact absurd rfl hqne
    | cons b bs =>
      simp only [List.cons_append, List.cons.injEq] at hqr
      have : bs ++ r = [] := hqr.2
      have hbs : r = [] := by
        cases bs <;> simp_all
      exact absurd hbs hr
/-! ## Development for the totality of the checked pipeline -/

theorem isSome_map {α β : Type} (f : α → β) (o : Option α) :
    (o.map f).isSome = o.isSome := by cases o <;> rfl

theorem containsId_eta (m : HNode) (tid : Nat) :
    containsId m tid = (decide (m.idOf = tid) || containsIdL m.children tid) := by
  cases m; rfl

theorem getAttrById_eta (tid : Nat) (a : String) (m : HNode) :
    getAttrById tid a m =
      if m.idOf = tid then getAttr m a else getAttrByIdL tid a m.children := by
  cases m; rfl

theorem setAttr_eq (n : HNode) (nm v : String) :
    setAttr n nm v = n.withAttrs
      (if (n.attrs.find? (fun p => p.1 = nm)).isSome then
        n.attrs.map (fun p => if p.1 = nm then (p.1, v) else p)
      else n.attrs ++ [(nm, v)]) := by
  by_cases h : (n.attrs.find? (fun p => p.1 = nm)).isSome = true
  · simp [setAttr, h]
  · simp [setAttr, h]

@[simp] theorem setAttr_idOf (n : HNode) (nm v : String) :
    (setAttr n nm v).idOf = n.idOf := by
  rw [setAttr_eq]; simp

@[simp] theorem setAttr_children (n : HNode) (nm v : String) :
    (setAttr n nm v).children = n.children := by
  rw [setAttr_eq]; simp

theorem containsId_setAttr (n : HNode) (nm v : String) (tid : Nat) :
    containsId (setAttr n nm v) tid = containsId n tid := by
  rw [containsId_eta, containsId_eta]
  simp

theorem getAttr_setAttr_isSome (n : HNode) (nm v a : String)
    (h : (getAttr n a).isSome = true) :
    (getAttr (setAttr n nm v) a).isSome = true := by
  rw [setAttr_eq]
  simp only [getAttr, isSome_map] at h ⊢
  rw [List.find?_isSome] at h ⊢
  obtain ⟨p, hp, hpa⟩ := h
  simp only [HNode.attrs_withAttrs]
  by_cases hf : (n.attrs.find? (fun p => p.1 = nm)).isSome = true
  · rw [if_pos hf]
    refine ⟨if p.1 = nm then (p.1, v) else p, List.mem_map.mpr ⟨p, hp, rfl⟩, ?_⟩
    by_cases hnm : p.1 = nm
    · simpa [hnm] using hpa
    · simpa [hnm] using hpa
  · rw [if_neg hf]
    exact ⟨p, List.mem_append.mpr (Or.inl hp), hpa⟩

mutual

theorem containsId_updateById_setAttr (tid2 : Nat) (nm v : String) (tid : Nat) :
    ∀ t : HNode,
      containsId (updateById tid2 (fun n => setAttr n nm v) t) tid
        = containsId t tid
  | .elem i tg a tx cs tl => by
    simp only [updateById]
    by_cases h2 : i = tid2
    · rw [if_pos h2, containsId_setAttr]
      simp only [containsId]
      rw [containsIdL_updateByIdL_setAttr tid2 nm v tid cs]
    · rw [if_neg h2]
      simp only [containsId]
      rw [containsIdL_updateByIdL_setAttr tid2 nm v tid cs]

theorem containsIdL_updateByIdL_setAttr (tid2 : Nat) (nm v : String) (tid : Nat) :
    ∀ cs : List HNode,
      containsIdL (updateByIdL tid2 (fun n => setAttr n nm v) cs) tid
        = containsIdL cs tid
  | [] => rfl
  | c :: cs => by
    simp only [updateByIdL, containsIdL]
    rw [containsId_updateById_setAttr tid2 nm v tid c,
      containsIdL_updateByIdL_setAttr tid2 nm v tid cs]

end

mutual

theorem getAttrById_updateById_isSome (tid2 : Nat) (nm v : String)
    (tid : Nat) (a : String) :
    ∀ t : HNode, (getAttrById tid a t).isSome = true →
      (getAttrById tid a
        (updateById tid2 (fun n => setAttr n nm v) t)).isSome = true
  | .elem i tg at' tx cs tl, h => by
    simp only [updateById]
    simp only [getAttrById] at h
    by_cases hit : i = tid
    · rw [if_pos hit] at h
      by_cases h2 : i = tid2
      · rw [if_pos h2, getAttrById_eta, setAttr_idOf]
        simp only [HNode.idOf]
        rw [if_pos hit]
        apply getAttr_setAttr_isSome
        simpa [getAttr, HNode.attrs, isSome_map] using h
      · rw [if_neg h2]
        simp only [getAttrById]
        rw [if_pos hit]
        exact h
    · rw [if_neg hit] at h
      by_cases h2 : i = tid2
      · rw [if_pos h2, getAttrById_eta, setAttr_idOf]
        simp only [HNode.idOf]
        rw [if_neg hit, setAttr_children]
        simp only [HNode.children]
        exact getAttrByIdL_updateByIdL_isSome tid2 nm v tid a cs h
      · rw [if_neg h2]
        simp only [getAttrById]
        rw [if_neg hit]
        exact getAttrByIdL_updateByIdL_isSome tid2 nm v tid a cs h

theorem getAttrByIdL_updateByIdL_isSome (tid2 : Nat) (nm v : String)
    (tid : Nat) (a : String) :
    ∀ cs : List HNode, (getAttrByIdL tid a cs).isSome = true →
      (getAttrByIdL tid a
        (updateByIdL tid2 (fun n => setAttr n nm v) cs)).isSome = true
  | c :: cs, h => by
    simp only [updateByIdL, getAttrByIdL]
    simp only [getAttrByIdL] at h
    rw [containsId_updateById_setAttr tid2 nm v tid c]
    by_cases hc : containsId c tid = true
    · rw [if_pos hc] at h ⊢
      exact getAttrById_updateById_isSome tid2 nm v tid a c h
    · rw [if_neg hc] at h ⊢
      exact getAttrByIdL_updateByIdL_isSome tid2 nm v tid a cs h

end

mutual

theorem containsId_of_mem_allNodes :
    ∀ (t n : HNode), n ∈ allNodes t → containsId t n.idOf = true
  | .elem i tg a tx cs tl, n, h => by
    simp only [allNodes, List.mem_cons] at h
    rw [containsId_eta, Bool.or_eq_true, decide_eq_true_eq]
    rcases h with rfl | h'
    · exact Or.inl rfl
    · exact Or.inr (containsIdL_of_mem_allNodesL cs n h')

theorem containsIdL_of_mem_allNodesL :
    ∀ (cs : List HNode) (n : HNode), n ∈ allNodesL cs →
      containsIdL cs n.idOf = true
  | c :: cs, n, h => by
    simp only [allNodesL, List.mem_append] at h
    simp only [containsIdL, Bool.or_eq_true]
    rcases h with h' | h'
    · exact Or.inl (containsId_of_mem_allNodes c n h')
    · exact Or.inr (containsIdL_of_mem_allNodesL cs n h')

end

mutual

theorem mem_idOf_of_containsId :
    ∀ (t : HNode) (tid : Nat), containsId t tid = true →
      tid ∈ (allNodes t).map HNode.idOf
  | .elem i tg a tx cs tl, tid, h => by
    rw [containsId_eta, Bool.or_eq_true, decide_eq_true_eq] at h
    simp only [allNodes, List.map_cons, List.mem_cons]
    rcases h with h' | h'
    · exact Or.inl h'.symm
    · exact Or.inr (mem_idOf_of_containsIdL cs tid h')

theorem mem_idOf_of_containsIdL :
    ∀ (cs : List HNode) (tid : Nat), containsIdL cs tid = true →
      tid ∈ (allNodesL cs).map HNode.idOf
  | c :: cs, tid, h => by
    simp only [containsIdL, Bool.or_eq_true] at h
    simp only [allNodesL, List.map_append, List.mem_append]
    rcases h with h' | h'
    · exact Or.inl (mem_idOf_of_containsId c tid h')
    · exact Or.inr (mem_idOf_of_containsIdL cs tid h')

end

mutual

/-- With document-unique ids (always true of real lxml trees, where
identity is object identity), lookup by id finds the attribute of exactly
the node that carries it. -/
theorem getAttrById_isSome_of_mem :
    ∀ (t n : HNode) (a : String), n ∈ allNodes t →
      (getAttr n a).isSome = true →
      ((allNodes t).map HNode.idOf).Nodup →
      (getAttrById n.idOf a t).isSome = true
  | .elem i tg at' tx cs tl, n, a, hn, ha, hnd => by
    simp only [allNodes, List.mem_cons] at hn
    simp only [allNodes, List.map_cons, List.nodup_cons] at hnd
    rw [getAttrById_eta]
    rcases hn with rfl | hn'
    · rw [if_pos rfl]
      exact ha
    · have hne : (HNode.elem i tg at' tx cs tl).idOf ≠ n.idOf := by
        intro he
        exact hnd.1 (he ▸ List.mem_map.mpr ⟨n, hn', rfl⟩)
      rw [if_neg hne]
      exact getAttrByIdL_isSome_of_mem cs n a hn' ha hnd.2

theorem getAttrByIdL_isSome_of_mem :
    ∀ (cs : List HNode) (n : HNode) (a : String), n ∈ allNodesL cs →
      (getAttr n a).isSome = true →
      ((allNodesL cs).map HNode.idOf).Nodup →
      (getAttrByIdL n.idOf a cs).isSome = true
  | c :: cs, n, a, hn, ha, hnd => by
    simp only [allNodesL, List.mem_append] at hn
    simp only [allNodesL, List.map_append, List.nodup_append] at hnd
    simp only [getAttrByIdL]
    rcases hn with h' | h'
    · rw [if_pos (containsId_of_mem_allNodes c n h')]
      exact getAttrById_isSome_of_mem c n a h' ha hnd.1
    · have hcf : containsId c n.idOf ≠ true := by
        intro hc
        exact hnd.2.2 (mem_idOf_of_containsId c n.idOf hc)
          (List.mem_map.mpr ⟨n, h', rfl⟩)
      rw [if_neg hcf]
      exact getAttrByIdL_isSome_of_mem cs n a h' ha hnd.2.1

end

/-- Every link of the iterlinks snapshot points at a present attribute. -/
theorem collectLinks_present (t : HNode)
    (hnd : ((allNodes t).map HNode.idOf).Nodup)
    (l : Nat × String × String) (hl : l ∈ collectLinks t) :
    (getAttrById l.1 l.2.1 t).isSome = true := by
  simp only [collectLinks, List.mem_flatMap] at hl
  obtain ⟨n, hn, hl2⟩ := hl
  obtain ⟨p, hp, rfl⟩ := List.mem_map.mp hl2
  have hp' : p ∈ n.attrs := List.mem_of_mem_filter hp
  have ha : (getAttr n p.1).isSome = true := by
    rw [getAttr, isSome_map, List.find?_isSome]
    exact ⟨p, hp', by simp⟩
  exact getAttrById_isSome_of_mem t n p.1 hn ha hnd

/-- One loop iteration never hits the assert when the link's attribute is
present, and it only rewrites that same attribute. -/
theorem linkStep_ok (uj : String → String → Option String)
    (so : String → Bool) (b : String) (t : HNode) (l : Nat × String × String)
    (h : (getAttrById l.1 l.2.1 t).isSome = true) :
    ∃ t', linkStep uj so b t l = .ok t' ∧
      (t' = t ∨ ∃ v, t' = updateById l.1 (fun n => setAttr n l.2.1 v) t) := by
  unfold linkStep
  cases huj : uj b (strTrim l.2.2) with
  | none => exact ⟨t, rfl, Or.inl rfl⟩
  | some nl =>
    by_cases hne : nl = l.2.2
    · simp only [if_pos hne]
      exact ⟨t, rfl, Or.inl rfl⟩
    · simp only [if_neg hne]
      cases hg : getAttrById l.1 l.2.1 t with
      | none => rw [hg] at h; exact absurd h (by simp)
      | some cur =>
        by_cases hso : so (if cur.length = l.2.2.length then nl
            else nl ++ strDrop cur l.2.2.length) = true
        · simp only [if_pos hso]
          exact ⟨_, rfl, Or.inr ⟨_, rfl⟩⟩
        · simp only [if_neg hso]
          by_cases hso2 : so (String.mk
              (((if cur.length = l.2.2.length then nl
                else nl ++ strDrop cur l.2.2.length)).toList.filter
                (fun c => ! isCcChar c))) = true
          · simp only [if_pos hso2]
            exact ⟨_, rfl, Or.inr ⟨_, rfl⟩⟩
          · simp only [if_neg hso2]
            exact ⟨t, rfl, Or.inl rfl⟩

/-- The absolutization loop succeeds whenever every pending link's
attribute is present in the current tree. -/
theorem foldlM_linkStep_ok (uj : String → String → Option String)
    (so : String → Bool) (b : String) :
    ∀ (links : List (Nat × String × String)) (t : HNode),
      (∀ l ∈ links, (getAttrById l.1 l.2.1 t).isSome = true) →
      (links.foldlM (linkStep uj so b) t).isOk = true
  | [], _, _ => rfl
  | l :: ls, t, h => by
    obtain ⟨t', heq, hcases⟩ := linkStep_ok uj so b t l (h l (List.mem_cons_self l ls))
    rw [List.foldlM_cons, heq]
    show (ls.foldlM (linkStep uj so b) t').isOk = true
    apply foldlM_linkStep_ok uj so b ls t'
    intro l' hl'
    have hl'' := h l' (List.mem_cons_of_mem l hl')
    rcases hcases with rfl | ⟨v, rfl⟩
    · exact hl''
    · exact getAttrById_updateById_isSome l.1 l.2.1 v l'.1 l'.2.1 t hl''

/-- C4: totality.  For every input tree with document-unique node ids (the
lxml situation, where nodes are distinguished by object identity) and any
behaviour of the two fallible URL collaborators, the checked pipeline
returns `.ok`: the only internal error points — the asserts of
make_links_absolute — are unreachable, and malformed URLs are skipped. -/
theorem C4_pipeline_totality (urljoin : String → String → Option String)
    (setOk : String → Bool) (node : HNode) (url : Option String)
    (hids : ((allNodes node).map HNode.idOf).Nodup) :
    (clean_nodeChecked urljoin setOk node url).isOk = true := by
  rw [clean_nodeChecked, clean_docChecked.eq_def]
  cases url with
  | none => rfl
  | some b =>
    have h := foldlM_linkStep_ok urljoin setOk b (collectLinks node) node
      (fun l hl => collectLinks_present node hids l hl)
    dsimp only
    cases hm : make_links_absoluteChecked urljoin setOk b node with
    | ok d0 => rfl
    | error e =>
      rw [make_links_absoluteChecked] at hm
      rw [hm] at h
      exact absurd h (by simp [Except.isOk, Except.toBool])

theorem C4_pipeline_totality_witness :
    ((allNodes s1Input).map HNode.idOf).Nodup ∧
    (clean_nodeChecked (fun _ l => some l) (fun _ => true) s1Input
      (some "http://example.com/")).isOk = true :=
  ⟨by decide, C4_pipeline_totality (fun _ l => some l) (fun _ => true) s1Input
    (some "http://example.com/") (by decide)⟩

theorem allNodes_eta (t : HNode) : allNodes t = t :: allNodesL t.children := by
  cases t; rfl

theorem allNodesL_append (as bs : List HNode) :
    allNodesL (as ++ bs) = allNodesL as ++ allNodesL bs := by
  induction as with
  | nil => rfl
  | cons c cs ih => simp [allNodesL, ih]

theorem mem_allNodesL_iff {n : HNode} {cs : List HNode} :
    n ∈ allNodesL cs ↔ ∃ c ∈ cs, n ∈ allNodes c := by
  induction cs with
  | nil => simp [allNodesL]
  | cons c cs ih =>
    simp only [allNodesL, List.mem_append, ih, List.mem_cons]
    constructor
    · rintro (h | ⟨d, hd, hnd⟩)
      · exact ⟨c, Or.inl rfl, h⟩
      · exact ⟨d, Or.inr hd, hnd⟩
    · rintro ⟨d, (rfl | hd), hnd⟩
      · exact Or.inl hnd
      · exact Or.inr ⟨d, hd, hnd⟩

theorem tagsOk_iff (p : String → Prop) (t : HNode) :
    tagsOk p t ↔ p t.tag ∧ tagsOkL p t.children := by
  rw [tagsOk, tagsOkL, allNodes_eta]
  constructor
  · intro h
    exact ⟨h t (List.mem_cons_self t _), fun n hn => h n (List.mem_cons_of_mem _ hn)⟩
  · rintro ⟨h1, h2⟩ n hn
    rcases List.mem_cons.mp hn with rfl | hn'
    · exact h1
    · exact h2 n hn'

theorem tagsOk_tag (p : String → Prop) (t : HNode) (h : tagsOk p t) :
    p t.tag := ((tagsOk_iff p t).mp h).1

theorem tagsOk_children (p : String → Prop) (t : HNode) (h : tagsOk p t) :
    tagsOkL p t.children := ((tagsOk_iff p t).mp h).2

theorem tagsOkL_nil (p : String → Prop) : tagsOkL p [] := by
  intro n hn
  simp [allNodesL] at hn

theorem tagsOkL_cons (p : String → Prop) (c : HNode) (cs : List HNode) :
    tagsOkL p (c :: cs) ↔ tagsOk p c ∧ tagsOkL p cs := by
  rw [tagsOkL, tagsOk, tagsOkL]
  simp only [allNodesL, List.mem_append]
  refine ⟨fun h => ⟨fun n hn => h n (Or.inl hn), fun n hn => h n (Or.inr hn)⟩,
    fun h n hn => hn.elim (h.1 n) (h.2 n)⟩

theorem tagsOkL_append_intro (p : String → Prop) {as bs : List HNode}
    (ha : tagsOkL p as) (hb : tagsOkL p bs) : tagsOkL p (as ++ bs) := by
  intro n hn
  rw [tagsOkL] at ha hb
  rw [allNodesL_append] at hn
  rcases List.mem_append.mp hn with h | h
  · exact ha n h
  · exact hb n h

theorem tagsOkL_of_subset (p : String → Prop) {cs ds : List HNode}
    (hsub : ∀ c ∈ cs, c ∈ ds) (h : tagsOkL p ds) : tagsOkL p cs := by
  intro n hn
  obtain ⟨c, hc, hnc⟩ := mem_allNodesL_iff.mp hn
  exact h n (mem_allNodesL_iff.mpr ⟨c, hsub c hc, hnc⟩)

theorem tagsOk_of_mem (p : String → Prop) {cs : List HNode} {c : HNode}
    (hc : c ∈ cs) (h : tagsOkL p cs) : tagsOk p c := by
  intro n hn
  exact h n (mem_allNodesL_iff.mpr ⟨c, hc, hn⟩)

theorem tagsOkL_take (p : String → Prop) {cs : List HNode} (i : Nat)
    (h : tagsOkL p cs) : tagsOkL p (cs.take i) :=
  tagsOkL_of_subset p (fun c hc => List.mem_of_mem_take hc) h

theorem tagsOkL_drop (p : String → Prop) {cs : List HNode} (i : Nat)
    (h : tagsOkL p cs) : tagsOkL p (cs.drop i) :=
  tagsOkL_of_subset p (fun c hc => List.mem_of_mem_drop hc) h

theorem tagsOkL_filter (p : String → Prop) {cs : List HNode}
    (q : HNode → Bool) (h : tagsOkL p cs) : tagsOkL p (cs.filter q) :=
  tagsOkL_of_subset p (fun c hc => List.mem_of_mem_filter hc) h

theorem tagsOkL_singleton (p : String → Prop) {c : HNode} (h : tagsOk p c) :
    tagsOkL p [c] := (tagsOkL_cons p c []).mpr ⟨h, tagsOkL_nil p⟩

theorem tagsOk_withTail (p : String → Prop) (t : HNode) (x : Option String)
    (h : tagsOk p t) : tagsOk p (t.withTail x) := by
  rw [tagsOk_iff] at h ⊢
  simpa using h

theorem tagsOk_withText (p : String → Prop) (t : HNode) (x : Option String)
    (h : tagsOk p t) : tagsOk p (t.withText x) := by
  rw [tagsOk_iff] at h ⊢
  simpa using h

theorem tagsOk_withAttrs (p : String → Prop) (t : HNode)
    (a : List (String × String)) (h : tagsOk p t) : tagsOk p (t.withAttrs a) := by
  rw [tagsOk_iff] at h ⊢
  simpa using h

theorem tagsOk_withTag (p : String → Prop) (t : HNode) (s : String)
    (hs : p s) (h : tagsOk p t) : tagsOk p (t.withTag s) := by
  rw [tagsOk_iff] at h ⊢
  simp only [HNode.tag_withTag, HNode.children_withTag]
  exact ⟨hs, h.2⟩

theorem tagsOk_withChildren (p : String → Prop) (t : HNode) (cs : List HNode)
    (hp : p t.tag) (hcs : tagsOkL p cs) : tagsOk p (t.withChildren cs) := by
  rw [tagsOk_iff]
  simp only [HNode.tag_withChildren, HNode.children_withChildren]
  exact ⟨hp, hcs⟩

theorem tagsOk_retext_children (p : String → Prop) (parent : HNode)
    (tx : Option String) (cs : List HNode) (hp : p parent.tag)
    (hcs : tagsOkL p cs) : tagsOk p ((parent.withText tx).withChildren cs) := by
  apply tagsOk_withChildren
  · simpa using hp
  · exact hcs

theorem tagsOkL_modifyAt (p : String → Prop) (f : HNode → HNode)
    (hf : ∀ c, tagsOk p c → tagsOk p (f c)) :
    ∀ (cs : List HNode) (i : Nat), tagsOkL p cs → tagsOkL p (modifyAt cs i f)
  | [], _, h => h
  | c :: cs, 0, h => by
    rw [tagsOkL_cons] at h
    show tagsOkL p (f c :: cs)
    rw [tagsOkL_cons]
    exact ⟨hf c h.1, h.2⟩
  | c :: cs, Nat.succ j, h => by
    rw [tagsOkL_cons] at h
    show tagsOkL p (c :: modifyAt cs j f)
    rw [tagsOkL_cons]
    exact ⟨h.1, tagsOkL_modifyAt p f hf cs j h.2⟩

theorem tagsOkL_insertAt (p : String → Prop) (x : HNode) (hx : tagsOk p x) :
    ∀ (cs : List HNode) (i : Nat), tagsOkL p cs → tagsOkL p (insertAt cs i x)
  | [], 0, _ => by
    show tagsOkL p (x :: [])
    exact tagsOkL_singleton p hx
  | c :: cs, 0, h => by
    show tagsOkL p (x :: c :: cs)
    rw [tagsOkL_cons]
    exact ⟨hx, h⟩
  | [], Nat.succ _, _ => by
    show tagsOkL p [x]
    exact tagsOkL_singleton p hx
  | c :: cs, Nat.succ j, h => by
    rw [tagsOkL_cons] at h
    show tagsOkL p (c :: insertAt cs j x)
    rw [tagsOkL_cons]
    exact ⟨h.1, tagsOkL_insertAt p x hx cs j h.2⟩

theorem tagsOkL_map (p : String → Prop) (f : HNode → HNode) :
    ∀ cs : List HNode, (∀ c ∈ cs, tagsOk p c → tagsOk p (f c)) →
      tagsOkL p cs → tagsOkL p (cs.map f)
  | [], _, h => h
  | c :: cs, hf, h => by
    rw [tagsOkL_cons] at h
    rw [List.map_cons, tagsOkL_cons]
    exact ⟨hf c (List.mem_cons_self c cs) h.1,
      tagsOkL_map p f cs (fun d hd => hf d (List.mem_cons_of_mem _ hd)) h.2⟩

theorem foldl_preserves {α β : Type} (P : β → Prop) (g : β → α → β)
    (hg : ∀ b x, P b → P (g b x)) :
    ∀ (xs : List α) (b : β), P b → P (xs.foldl g b)
  | [], _, h => h
  | x :: xs, b, h => by
    rw [List.foldl_cons]
    exact foldl_preserves P g hg xs (g b x) (hg b x h)

/-! Preservation of the tag vocabulary by the tree surgeries. -/

theorem tagsOk_dropTagAt (p : String → Prop) (parent : HNode) (i : Nat)
    (h : tagsOk p parent) : tagsOk p (dropTagAt parent i) := by
  unfold dropTagAt
  cases hc : parent.children.get? i with
  | none => exact h
  | some c =>
    have hcm : tagsOk p c :=
      tagsOk_of_mem p (List.get?_mem hc) (tagsOk_children p parent h)
    dsimp only
    split_ifs <;>
      (apply tagsOk_retext_children p parent _ _ (tagsOk_tag p parent h) <;>
       simp only [HNode.children_withChildren] <;>
       repeat
        first
        | exact tagsOk_children p parent h
        | exact tagsOk_children p c hcm
        | apply tagsOkL_append_intro
        | apply tagsOkL_take
        | apply tagsOkL_drop
        | apply tagsOkL_modifyAt p _ (fun d hd => tagsOk_withTail p d _ hd))

theorem tagsOk_dropTreeAt (p : String → Prop) (parent : HNode) (i : Nat)
    (h : tagsOk p parent) : tagsOk p (dropTreeAt parent i) := by
  unfold dropTreeAt
  cases hc : parent.children.get? i with
  | none => exact h
  | some c =>
    dsimp only
    split_ifs <;>
      (apply tagsOk_retext_children p parent _ _ (tagsOk_tag p parent h) <;>
       repeat
        first
        | exact tagsOk_children p parent h
        | apply tagsOkL_append_intro
        | apply tagsOkL_take
        | apply tagsOkL_drop
        | apply tagsOkL_modifyAt p _ (fun d hd => tagsOk_withTail p d _ hd))

theorem tagsOk_newElem (p : String → Prop) (s : String) (hs : p s) :
    tagsOk p (HNode.newElem s) := by
  rw [tagsOk_iff]
  exact ⟨hs, tagsOkL_nil p⟩

theorem tagsOk_dropTagPreserveSpacingAt (p : String → Prop) (hbr : p "br")
    (parent : HNode) (i : Nat) (preserve : Bool)
    (h : tagsOk p parent) : tagsOk p (dropTagPreserveSpacingAt parent i preserve) := by
  unfold dropTagPreserveSpacingAt
  cases hc : parent.children.get? i with
  | none => exact h
  | some c =>
    have hbrN : tagsOk p (HNode.newElem "br") := tagsOk_newElem p "br" hbr
    dsimp only
    split_ifs <;>
      first
      | exact tagsOk_dropTagAt p _ _ h
      | exact tagsOk_dropTreeAt p _ _ h
      | ((first
          | apply tagsOk_dropTagAt
          | apply tagsOk_dropTreeAt) <;>
         dsimp only <;>
         (repeat
           first
           | simp only [HNode.children_withChildren, HNode.tag_withChildren]
           | exact h
           | exact tagsOk_tag p parent h
           | exact tagsOk_children p parent h
           | apply tagsOkL_insertAt p _ (tagsOk_withTail p _ _ hbrN)
           | apply tagsOkL_insertAt p _ hbrN
           | apply tagsOkL_modifyAt p _ (fun d hd => tagsOk_withTail p d _ hd)
           | apply tagsOk_withChildren))

theorem tagsOk_drop_tag_preserve_spacing (p : String → Prop) (hbr : p "br") :
    ∀ (path : List Nat) (root : HNode) (preserve : Bool), tagsOk p root →
      tagsOk p (drop_tag_preserve_spacing root path preserve)
  | [], _, _, h => h
  | [i], root, preserve, h => by
    show tagsOk p (dropTagPreserveSpacingAt root i preserve)
    exact tagsOk_dropTagPreserveSpacingAt p hbr root i preserve h
  | i :: j :: rest, root, preserve, h => by
    show tagsOk p (root.withChildren (modifyAt root.children i
      (fun c => drop_tag_preserve_spacing c (j :: rest) preserve)))
    apply tagsOk_withChildren p root _ (tagsOk_tag p root h)
    exact tagsOkL_modifyAt p _
      (fun c hc => tagsOk_drop_tag_preserve_spacing p hbr (j :: rest) c preserve hc)
      root.children i (tagsOk_children p root h)

mutual

theorem tagsOk_applyAtParentOf (p : String → Prop)
    (f : HNode → Nat → HNode) (hf : ∀ t j, tagsOk p t → tagsOk p (f t j)) :
    ∀ (t : HNode) (tid : Nat), tagsOk p t → tagsOk p (applyAtParentOf t tid f)
  | .elem i tg a tx cs tl, tid, h => by
    simp only [applyAtParentOf]
    cases findChildIdx cs tid with
    | some j => exact hf _ j h
    | none =>
      show tagsOk p (.elem i tg a tx (applyAtParentOfL cs tid f) tl)
      rw [tagsOk_iff] at h ⊢
      exact ⟨h.1, tagsOk_applyAtParentOfL p f hf cs tid h.2⟩

theorem tagsOk_applyAtParentOfL (p : String → Prop)
    (f : HNode → Nat → HNode) (hf : ∀ t j, tagsOk p t → tagsOk p (f t j)) :
    ∀ (cs : List HNode) (tid : Nat), tagsOkL p cs →
      tagsOkL p (applyAtParentOfL cs tid f)
  | [], _, h => h
  | c :: rest, tid, h => by
    simp only [applyAtParentOfL]
    rw [tagsOkL_cons] at h
    by_cases hc : containsId c tid = true
    · rw [if_pos hc, tagsOkL_cons]
      exact ⟨tagsOk_applyAtParentOf p f hf c tid h.1, h.2⟩
    · rw [if_neg hc, tagsOkL_cons]
      exact ⟨h.1, tagsOk_applyAtParentOfL p f hf rest tid h.2⟩

end

theorem tagsOk_dropTagById (p : String → Prop) (hbr : p "br")
    (root : HNode) (tid : Nat) (preserve : Bool) (h : tagsOk p root) :
    tagsOk p (dropTagById root tid preserve) :=
  tagsOk_applyAtParentOf p _
    (fun t j ht => tagsOk_dropTagPreserveSpacingAt p hbr t j preserve ht)
    root tid h

theorem tagsOk_dropChildById (p : String → Prop) (hbr : p "br")
    (parent : HNode) (tid : Nat) (preserve : Bool) (h : tagsOk p parent) :
    tagsOk p (dropChildById parent tid preserve) := by
  unfold dropChildById
  cases findChildIdx parent.children tid with
  | some j => exact tagsOk_dropTagPreserveSpacingAt p hbr parent j preserve h
  | none => exact h

theorem tagsOk_wrapRootWithTag (p : String → Prop) (doc : HNode) (s : String)
    (hs : p s) (h : tagsOk p doc) : tagsOk p (wrapRootWithTag doc s) := by
  unfold wrapRootWithTag
  apply tagsOk_withChildren
  · simpa using hs
  · exact tagsOkL_singleton p (tagsOk_withTail p doc none h)

theorem tagsOk_wrapChildWithTagAt (p : String → Prop) (parent : HNode)
    (i : Nat) (s : String) (hs : p s) (h : tagsOk p parent) :
    tagsOk p (wrapChildWithTagAt parent i s) := by
  unfold wrapChildWithTagAt
  apply tagsOk_withChildren p parent _ (tagsOk_tag p parent h)
  exact tagsOkL_modifyAt p _ (fun c hc => tagsOk_wrapRootWithTag p c s hs hc)
    parent.children i (tagsOk_children p parent h)

theorem tagsOk_wrap_element_content_with_tag (p : String → Prop)
    (doc : HNode) (s : String) (hs : p s) (h : tagsOk p doc) :
    tagsOk p (wrap_element_content_with_tag doc s) := by
  unfold wrap_element_content_with_tag
  dsimp only
  apply tagsOk_withChildren
  · simpa using tagsOk_tag p doc h
  · apply tagsOkL_singleton
    apply tagsOk_withText
    apply tagsOk_withChildren
    · simpa using hs
    · exact tagsOk_children p doc h

theorem tagsOk_wrapChildrenSliceAt (p : String → Prop) (parent : HNode)
    (start stop : Nat) (s : String) (hs : p s) (h : tagsOk p parent) :
    tagsOk p (wrapChildrenSliceAt parent start stop s) := by
  unfold wrapChildrenSliceAt
  dsimp only
  apply tagsOk_withChildren p parent _ (tagsOk_tag p parent h)
  apply tagsOkL_append_intro
  apply tagsOkL_append_intro
  · exact tagsOkL_take p start (tagsOk_children p parent h)
  · apply tagsOkL_singleton
    apply tagsOk_withChildren
    · simpa using hs
    · exact tagsOkL_modifyAt p _ (fun c hc => tagsOk_withTail p c none hc) _ _
        (tagsOkL_drop p start (tagsOkL_take p stop (tagsOk_children p parent h)))
  · exact tagsOkL_drop p stop (tagsOk_children p parent h)

theorem tagsOk_updateAtPath (p : String → Prop) (f : HNode → HNode)
    (hf : ∀ t, tagsOk p t → tagsOk p (f t)) :
    ∀ (path : List Nat) (t : HNode), tagsOk p t →
      tagsOk p (updateAtPath t path f)
  | [], t, h => hf t h
  | i :: rest, t, h => by
    show tagsOk p (t.withChildren (modifyAt t.children i
      (fun c => updateAtPath c rest f)))
    apply tagsOk_withChildren p t _ (tagsOk_tag p t h)
    exact tagsOkL_modifyAt p _
      (fun c hc => tagsOk_updateAtPath p f hf rest c hc)
      t.children i (tagsOk_children p t h)

mutual

theorem tagsOk_killTagH (p : String → Prop) (s : String) :
    ∀ t : HNode, tagsOk p t → tagsOk p (killTagH s t)
  | .elem i tg a tx cs tl, h => by
    simp only [killTagH]
    rw [tagsOk_iff] at h
    by_cases hs : tg = s
    · rw [if_pos hs, tagsOk_iff]
      exact ⟨h.1, tagsOkL_nil p⟩
    · rw [if_neg hs, tagsOk_iff]
      exact ⟨h.1, tagsOk_killTagL p s cs h.2⟩

theorem tagsOk_killTagL (p : String → Prop) (s : String) :
    ∀ cs : List HNode, tagsOkL p cs → tagsOkL p (killTagL s cs)
  | [], h => h
  | c :: cs, h => by
    simp only [killTagL]
    rw [tagsOkL_cons] at h ⊢
    exact ⟨tagsOk_killTagH p s c h.1, tagsOk_killTagL p s cs h.2⟩

end

theorem tagsOk_kill_tag_content (p : String → Prop) (doc : HNode) (s : String)
    (h : tagsOk p doc) : tagsOk p (kill_tag_content doc s) := by
  unfold kill_tag_content
  apply tagsOk_withChildren p doc _ (tagsOk_tag p doc h)
  exact tagsOk_killTagL p s doc.children (tagsOk_children p doc h)

mutual

theorem tagsOk_baseCleanNode (p : String → Prop) (wl : List Nat) :
    ∀ t : HNode, tagsOk p t → tagsOk p (baseCleanNode wl t)
  | .elem i tg a tx cs tl, h => by
    simp only [baseCleanNode]
    rw [tagsOk_iff] at h
    rw [tagsOk_iff]
    exact ⟨h.1, tagsOkL_baseCleanL p wl cs tx h.2⟩

theorem tagsOkL_baseCleanL (p : String → Prop) (wl : List Nat) :
    ∀ (cs : List HNode) (tx : Option String), tagsOkL p cs →
      tagsOkL p (baseCleanL wl cs tx).1
  | [], _, h => h
  | c :: rest, tx, h => by
    simp only [baseCleanL]
    rw [tagsOkL_cons] at h
    by_cases hk : (BASE_KILL_TAGS.contains c.tag && (! wl.contains c.idOf)) = true
    · rw [if_pos hk]
      exact tagsOkL_baseCleanL p wl rest _ h.2
    · rw [if_neg hk]
      show tagsOkL p ((baseCleanNode wl c).withTail _ :: (baseCleanL wl rest _).1)
      rw [tagsOkL_cons]
      exact ⟨tagsOk_withTail p _ _ (tagsOk_baseCleanNode p wl c h.1),
        tagsOkL_baseCleanL p wl rest _ h.2⟩

end

mutual

theorem tagsOk_attrFilterNode (p : String → Prop) (safe : List String)
    (wl : List Nat) : ∀ t : HNode, tagsOk p t → tagsOk p (attrFilterNode safe wl t)
  | .elem i tg a tx cs tl, h => by
    simp only [attrFilterNode]
    rw [tagsOk_iff] at h
    rw [tagsOk_iff]
    exact ⟨h.1, tagsOkL_attrFilterL p safe wl cs h.2⟩

theorem tagsOkL_attrFilterL (p : String → Prop) (safe : List String)
    (wl : List Nat) : ∀ cs : List HNode, tagsOkL p cs →
      tagsOkL p (attrFilterL safe wl cs)
  | [], h => h
  | c :: cs, h => by
    simp only [attrFilterL]
    rw [tagsOkL_cons] at h ⊢
    exact ⟨tagsOk_attrFilterNode p safe wl c h.1,
      tagsOkL_attrFilterL p safe wl cs h.2⟩

end

theorem tagsOk_bodyCleanerCall (p : String → Prop) (hbr : p "br")
    (hdiv : p "div") (allowTags safeAttrs : List String) (wl : List Nat)
    (doc : HNode) (h : tagsOk p doc) :
    tagsOk p (bodyCleanerCall allowTags safeAttrs wl doc) := by
  unfold bodyCleanerCall
  dsimp only
  apply foldl_preserves (tagsOk p)
    (fun (acc : HNode) (n : HNode) => dropTagById acc n.idOf true)
    (fun acc n hacc => tagsOk_dropTagById p hbr acc n.idOf true hacc)
  have h2 : tagsOk p (attrFilterNode safeAttrs wl (baseCleanNode wl doc)) :=
    tagsOk_attrFilterNode p safeAttrs wl _ (tagsOk_baseCleanNode p wl doc h)
  split_ifs
  · exact tagsOk_withAttrs p _ [] (tagsOk_withTag p _ "div" hdiv h2)
  · exact h2

theorem tagsOk_fuse_figcaptions (p : String → Prop) (hbr : p "br")
    (hfigc : p "figcaption") (figure : HNode) (h : tagsOk p figure) :
    tagsOk p (fuse_figcaptions figure) := by
  unfold fuse_figcaptions
  dsimp only
  have h1 : ∀ ids : List Nat,
      tagsOk p (ids.foldl (fun f tid => dropChildById f tid false) figure) :=
    fun ids => foldl_preserves (tagsOk p) _
      (fun b x hb => tagsOk_dropChildById p hbr b x false hb) ids figure h
  cases hse : (fuseRun figure.children).1 with
  | none => exact h1 _
  | some s =>
    dsimp only
    split_ifs
    · have h2 : ∀ (ids : List Nat) (stop : Nat), tagsOk p (wrapChildrenSliceAt
          (List.foldl (fun f tid => dropChildById f tid false) figure ids)
          s stop "figcaption") :=
        fun ids stop =>
          tagsOk_wrapChildrenSliceAt p _ s stop "figcaption" hfigc (h1 ids)
      apply tagsOk_withChildren p _ _ (tagsOk_tag p _ (h2 _ _))
      apply tagsOkL_modifyAt p _
        (fun w hw => foldl_preserves (tagsOk p) _
          (fun b x hb => tagsOk_dropChildById p hbr b x true hb) _ w hw)
        _ _ (tagsOk_children p _ (h2 _ _))
    · exact h1 _

theorem tagsOk_dissolveStructure_go (p : String → Prop)
    (hrev : ∀ r ∈ MUST_ANCESTORS_FOR_KEEP_CONTENT_REVERSED, p r.2)
    (root : HNode) (capPath : List Nat) (h : tagsOk p root) :
    ∀ ks : List Nat, tagsOk p (dissolveStructure.go root capPath ks)
  | [] => h
  | k :: ks => by
    simp only [dissolveStructure.go]
    cases hap : atPath root (capPath.take (capPath.length - 1 - k)) with
    | none => exact tagsOk_dissolveStructure_go p hrev root capPath h ks
    | some anc =>
      dsimp only
      cases hfd : (MUST_ANCESTORS_FOR_KEEP_CONTENT_REVERSED.find?
          (fun q => q.1 = anc.tag)).map (fun q => q.2) with
      | none => exact tagsOk_dissolveStructure_go p hrev root capPath h ks
      | some newTag =>
        obtain ⟨r, hr, hr2⟩ := Option.map_eq_some'.mp hfd
        have hpnew : p newTag := hr2 ▸ hrev r (List.mem_of_find?_eq_some hr)
        exact tagsOk_updateAtPath p _
          (fun t ht => tagsOk_withTag p t newTag hpnew ht) _ root h

theorem tagsOk_dissolveStructure (p : String → Prop)
    (hrev : ∀ r ∈ MUST_ANCESTORS_FOR_KEEP_CONTENT_REVERSED, p r.2)
    (root : HNode) (capPath : List Nat) (h : tagsOk p root) :
    tagsOk p (dissolveStructure root capPath) :=
  tagsOk_dissolveStructure_go p hrev root capPath h _

theorem tagsOk_cfifStep (p : String → Prop) (hbr : p "br")
    (hfig : p "figure") (hfigc : p "figcaption")
    (hrev : ∀ r ∈ MUST_ANCESTORS_FOR_KEEP_CONTENT_REVERSED, p r.2)
    (root : HNode) (capId : Nat) (h : tagsOk p root) :
    tagsOk p (cfifStep root capId) := by
  unfold cfifStep
  cases pathToId root capId with
  | none => exact h
  | some path =>
    dsimp only
    cases group_with_previous_content_block root path with
    | none => exact h
    | some sl =>
      dsimp only
      cases atPath root sl.nodePath with
      | none => exact h
      | some slNode =>
        dsimp only
        cases slNode.children.get? sl.start with
        | none => exact h
        | some prev_content_node =>
          dsimp only
          split_ifs with h1 h2
          · exact h
          all_goals (
            apply tagsOk_updateAtPath p _
              (fun fig hf => tagsOk_fuse_figcaptions p hbr hfigc _
                (foldl_preserves (tagsOk p) _
                  (fun b x hb => tagsOk_dropTagById p hbr b x true hb) _ fig hf))
            apply tagsOk_updateAtPath p _
              (fun t ht => tagsOk_wrapChildrenSliceAt p t sl.start sl.stop
                "figure" hfig ht))
          · exact tagsOk_dissolveStructure p hrev root path h
          · exact h

theorem tagsOk_create_figures_from_isolated_figcaptions (p : String → Prop)
    (hbr : p "br") (hfig : p "figure") (hfigc : p "figcaption")
    (hrev : ∀ r ∈ MUST_ANCESTORS_FOR_KEEP_CONTENT_REVERSED, p r.2)
    (node : HNode) (h : tagsOk p node) :
    tagsOk p (create_figures_from_isolated_figcaptions node) := by
  unfold create_figures_from_isolated_figcaptions
  exact foldl_preserves (tagsOk p) cfifStep
    (fun b x hb => tagsOk_cfifStep p hbr hfig hfigc hrev b x hb) _ node h

theorem tagsOk_cond (p : String → Prop) (b : Bool) (x y : HNode)
    (hx : tagsOk p x) (hy : tagsOk p y) : tagsOk p (cond b x y) := by
  cases b
  · exact hy
  · exact hx

theorem tagsOk_remove_figures_step (p : String → Prop) (hbr : p "br")
    (acc : HNode) (tid : Nat) (h : tagsOk p acc) :
    tagsOk p (remove_figures_without_content.step acc tid) := by
  unfold remove_figures_without_content.step
  cases pathToId acc tid with
  | none => exact h
  | some path =>
    cases path with
    | nil => exact h
    | cons i rest =>
      dsimp only
      cases atPath acc (i :: rest) with
      | none => exact h
      | some figure =>
        dsimp only
        split_ifs
        · exact tagsOk_drop_tag_preserve_spacing p hbr _ acc false h
        · exact h

theorem tagsOk_remove_figures_without_content (p : String → Prop)
    (hbr : p "br") (doc : HNode) (h : tagsOk p doc) :
    tagsOk p (remove_figures_without_content doc) := by
  unfold remove_figures_without_content
  exact foldl_preserves (tagsOk p) remove_figures_without_content.step
    (fun b x hb => tagsOk_remove_figures_step p hbr b x hb) _ doc h

theorem tagsOk_clean_double_br_step (p : String → Prop)
    (acc : HNode) (tid : Nat) (h : tagsOk p acc) :
    tagsOk p (clean_double_br_above_figcaption.step acc tid) := by
  unfold clean_double_br_above_figcaption.step
  cases pathToId acc tid with
  | none => exact h
  | some path =>
    cases path with
    | nil => exact h
    | cons i rest =>
      dsimp only
      cases (i :: rest : List Nat).getLast? with
      | none => exact h
      | some idx =>
        dsimp only
        refine tagsOk_updateAtPath p _ (fun t ht => ?_) _ acc h
        dsimp only
        split_ifs
        · exact tagsOk_dropTreeAt p _ _ (tagsOk_dropTreeAt p _ _ ht)
        · exact ht

theorem tagsOk_clean_double_br_above_figcaption (p : String → Prop)
    (doc : HNode) (h : tagsOk p doc) :
    tagsOk p (clean_double_br_above_figcaption doc) := by
  unfold clean_double_br_above_figcaption
  exact foldl_preserves (tagsOk p) clean_double_br_above_figcaption.step
    (fun b x hb => tagsOk_clean_double_br_step p b x hb) _ doc h

theorem tagsOk_clean_figcaptions_step (p : String → Prop) (hbr : p "br")
    (hdiv : p "div") (acc : HNode) (tid : Nat) (h : tagsOk p acc) :
    tagsOk p (clean_figcaptions_html.step acc tid) := by
  unfold clean_figcaptions_html.step
  cases pathToId acc tid with
  | none => exact h
  | some path =>
    dsimp only
    exact tagsOk_updateAtPath p _
      (fun t ht => tagsOk_bodyCleanerCall p hbr hdiv _ _ [] t ht) path acc h

theorem tagsOk_clean_figcaptions_html (p : String → Prop) (hbr : p "br")
    (hdiv : p "div") (node : HNode) (h : tagsOk p node) :
    tagsOk p (clean_figcaptions_html node) := by
  unfold clean_figcaptions_html
  exact foldl_preserves (tagsOk p) clean_figcaptions_html.step
    (fun b x hb => tagsOk_clean_figcaptions_step p hbr hdiv b x hb) _ node h

theorem tagsOk_cisFoldGo (p : String → Prop) (hbr : p "br")
    (rules : List (String × List String)) (preserve : Bool)
    (recurse : List String → HNode → HNode) (wl : List Nat)
    (hrec : ∀ anc c, tagsOk p c → tagsOk p (recurse anc c)) :
    ∀ (anc : List String) (parent : HNode) (ids : List Nat), tagsOk p parent →
      tagsOk p (cisFoldGo rules preserve recurse wl anc parent ids)
  | _, _, [], h => h
  | anc, parent, id :: rest, h => by
    simp only [cisFoldGo]
    cases findChildIdx parent.children id with
    | none => exact tagsOk_cisFoldGo p hbr rules preserve recurse wl hrec anc parent rest h
    | some j =>
      dsimp only
      cases hj : parent.children.get? j with
      | none => exact tagsOk_cisFoldGo p hbr rules preserve recurse wl hrec anc parent rest h
      | some c =>
        dsimp only
        have hc : tagsOk p c :=
          tagsOk_of_mem p (List.get?_mem hj) (tagsOk_children p parent h)
        have hparent' : tagsOk p (parent.withChildren
            (modifyAt parent.children j (fun _ => recurse (anc ++ [c.tag]) c))) :=
          tagsOk_withChildren p parent _ (tagsOk_tag p parent h)
            (tagsOkL_modifyAt p _ (fun _ _ => hrec (anc ++ [c.tag]) c hc) _ _
              (tagsOk_children p parent h))
        exact tagsOk_cisFoldGo p hbr rules preserve recurse wl hrec anc _ rest
          (tagsOk_cond p _ _ _
            (tagsOk_dropTagPreserveSpacingAt p hbr _ j preserve hparent')
            hparent')

theorem tagsOk_cisFold (p : String → Prop) (hbr : p "br")
    (rules : List (String × List String)) (preserve : Bool) :
    ∀ (fuel : Nat) (wl : List Nat) (anc : List String) (parent : HNode)
      (ids : List Nat), tagsOk p parent →
      tagsOk p (cisFold fuel rules preserve wl anc parent ids)
  | 0, _, _, _, _, h => h
  | fuel + 1, wl, anc, parent, ids, h => by
    simp only [cisFold]
    exact tagsOk_cisFoldGo p hbr rules preserve _ wl
      (fun anc2 c hc => tagsOk_cisFold p hbr rules preserve fuel [] anc2 c _ hc)
      anc parent ids h

theorem tagsOk_clean_incomplete_structures (p : String → Prop) (hbr : p "br")
    (doc : HNode) (rules : List (String × List String)) (preserve : Bool)
    (wl : List Nat) (h : tagsOk p doc) :
    tagsOk p (clean_incomplete_structures doc rules preserve wl) := by
  unfold clean_incomplete_structures
  exact tagsOk_cisFold p hbr rules preserve _ wl _ doc _ h

theorem tagsOk_top_level_media_within_figure (p : String → Prop)
    (hfig : p "figure") (doc : HNode) (wl : List Nat) (h : tagsOk p doc) :
    tagsOk p (top_level_media_within_figure doc wl) := by
  unfold top_level_media_within_figure
  apply tagsOk_withChildren p doc _ (tagsOk_tag p doc h)
  apply tagsOkL_map p _ doc.children ?_ (tagsOk_children p doc h)
  intro c _ hcok
  by_cases h1 : (c.tag = "p" && is_single_tag c && (! wl.contains c.idOf)) = true
  · rw [if_pos h1]
    cases c.children.head? with
    | none => exact hcok
    | some pc =>
      dsimp only
      split_ifs
      · exact tagsOk_withTag p c "figure" hfig hcok
      · cases pc.children.head? with
        | some ac =>
          dsimp only
          split_ifs
          · exact tagsOk_withTag p c "figure" hfig hcok
          · exact hcok
        | none => exact hcok
      · exact hcok
  · rw [if_neg h1]
    exact hcok

theorem tagsOk_almost_pretty_format (p : String → Prop) (doc : HNode)
    (h : tagsOk p doc) : tagsOk p (almost_pretty_format doc) := by
  unfold almost_pretty_format
  apply tagsOk_retext_children p doc _ _ (tagsOk_tag p doc h)
  apply tagsOkL_map p _ doc.children ?_ (tagsOk_children p doc h)
  intro c _ hcok
  dsimp only
  split_ifs <;>
    (repeat
      first
      | simp only [HNode.tag_withTail, HNode.tag_withText,
          HNode.children_withTail, HNode.children_withText,
          HNode.children_withChildren, HNode.tag_withChildren]
      | exact hcok
      | exact tagsOk_tag p c hcok
      | exact tagsOk_children p c hcok
      | apply tagsOk_withTail
      | apply tagsOk_withText
      | apply tagsOk_withChildren
      | apply tagsOkL_modifyAt p _ (fun d hd => tagsOk_withTail p d _ hd))

theorem tagsOkL_map_of (p : String → Prop) {α : Type} (f : α → HNode) :
    ∀ xs : List α, (∀ x ∈ xs, tagsOk p (f x)) → tagsOkL p (xs.map f)
  | [], _ => tagsOkL_nil p
  | x :: xs, hf => by
    rw [List.map_cons, tagsOkL_cons]
    exact ⟨hf x (List.mem_cons_self x xs),
      tagsOkL_map_of p f xs (fun y hy => hf y (List.mem_cons_of_mem _ hy))⟩

theorem pushAccum_inv (p : String → Prop) (hp' : p "p") (st : PState)
    (idx : Nat) (ha : tagsOkL p st.arr)
    (ho : ∀ q, Sum.inr q ∈ st.out → tagsOk p q) :
    tagsOkL p (pushAccum st idx).arr ∧
      ∀ q, Sum.inr q ∈ (pushAccum st idx).out → tagsOk p q := by
  have hcv : tagsOkL p (st.chunk.filterMap (fun j => st.arr.get? j)) :=
    tagsOkL_of_subset p (fun c hc => by
      obtain ⟨j, _, hjc⟩ := List.mem_filterMap.mp hc
      exact List.get?_mem hjc) ha
  have hpn : ∀ tx : Option String, tagsOk p
      (((HNode.newElem "p").withChildren
        (st.chunk.filterMap (fun j => st.arr.get? j))).withText tx) := by
    intro tx
    apply tagsOk_withText
    apply tagsOk_withChildren
    · exact hp'
    · exact hcv
  unfold pushAccum
  dsimp only
  split_ifs with h1 h2 h3
  · exact ⟨ha, fun q hq => by
      rcases List.mem_append.mp hq with h' | h'
      · exact ho q h'
      · rw [List.mem_singleton] at h'
        cases h'
        exact hpn _⟩
  · exact ⟨ha, ho⟩
  · split
    · try dsimp only
      exact ⟨ha, fun q hq => by
        rcases List.mem_append.mp hq with h' | h'
        · exact ho q h'
        · rw [List.mem_singleton] at h'
          cases h'
          exact hpn _⟩
    · try dsimp only
      refine ⟨tagsOkL_modifyAt p _ (fun d hd => tagsOk_withTail p d _ hd)
        _ _ ha, fun q hq => ?_⟩
      rcases List.mem_append.mp hq with h' | h'
      · exact ho q h'
      · rw [List.mem_singleton] at h'
        cases h'
        exact hpn _
  · split
    · try dsimp only
      exact ⟨ha, ho⟩
    · try dsimp only
      exact ⟨tagsOkL_modifyAt p _ (fun d hd => tagsOk_withTail p d _ hd)
        _ _ ha, ho⟩

theorem tagsOk_paragraphy (p : String → Prop) (hp' : p "p") (doc : HNode)
    (h : tagsOk p doc) : tagsOk p (paragraphy doc) := by
  unfold paragraphy
  dsimp only
  apply tagsOk_retext_children p doc _ _ (tagsOk_tag p doc h)
  have hinv : tagsOkL p ((List.range doc.children.length).foldl
        (fun (st : PState) (idx : Nat) =>
          match doc.children.get? idx with
          | none => st
          | some el =>
            if PHRASING_CONTENT.contains el.tag
                && (! ((forceSplitFlags doc.children).get? idx).getD false) then
              { st with chunk := st.chunk ++ [idx] }
            else
              let st' := pushAccum st idx
              if ! ((forceSplitFlags doc.children).get? idx).getD false then
                { st' with out := st'.out ++ [Sum.inl idx] }
              else st')
        ⟨doc.children, [], doc.text, true, []⟩).arr ∧
      ∀ q, Sum.inr q ∈ ((List.range doc.children.length).foldl
        (fun (st : PState) (idx : Nat) =>
          match doc.children.get? idx with
          | none => st
          | some el =>
            if PHRASING_CONTENT.contains el.tag
                && (! ((forceSplitFlags doc.children).get? idx).getD false) then
              { st with chunk := st.chunk ++ [idx] }
            else
              let st' := pushAccum st idx
              if ! ((forceSplitFlags doc.children).get? idx).getD false then
                { st' with out := st'.out ++ [Sum.inl idx] }
              else st')
        ⟨doc.children, [], doc.text, true, []⟩).out → tagsOk p q := by
    apply foldl_preserves
      (fun st : PState => tagsOkL p st.arr ∧
        ∀ q, Sum.inr q ∈ st.out → tagsOk p q)
    · intro st idx ⟨ha, ho⟩
      cases doc.children.get? idx with
      | none => exact ⟨ha, ho⟩
      | some el =>
        dsimp only
        split_ifs
        · exact ⟨ha, ho⟩
        · obtain ⟨ha', ho'⟩ := pushAccum_inv p hp' st idx ha ho
          refine ⟨ha', fun q hq => ?_⟩
          rcases List.mem_append.mp hq with h' | h'
          · exact ho' q h'
          · rw [List.mem_singleton] at h'
            cases h'
        · exact pushAccum_inv p hp' st idx ha ho
    · exact ⟨tagsOk_children p doc h, fun q hq => by cases hq⟩
  obtain ⟨ha, ho⟩ := pushAccum_inv p hp' _ doc.children.length hinv.1 hinv.2
  apply tagsOkL_map_of
  intro o ho'
  cases o with
  | inl j =>
    dsimp only
    cases hg : (pushAccum _ doc.children.length).arr.get? j with
    | none => exact tagsOk_newElem p "p" hp'
    | some v => exact tagsOk_of_mem p (List.get?_mem hg) ha
  | inr q => exact ho q ho'

theorem heading_rename_ne_h1 (k m : Nat) (hk1 : 1 ≤ k) (hk6 : k ≤ 6) :
    "h" ++ toString (k - m + 2) ≠ "h1" := by
  have h2 : 2 ≤ k - m + 2 := by omega
  have h8 : k - m + 2 ≤ 8 := by omega
  set j := k - m + 2 with hj
  interval_cases j <;> decide

mutual

theorem tagsOk_normH_no_h1 (m : Nat) :
    ∀ t : HNode, tagsOk (fun s => s ≠ "h1") (normH m [] t)
  | .elem i tg a tx cs tl => by
    simp only [normH]
    cases hk : headingLevel? tg with
    | none =>
      rw [tagsOk_iff]
      refine ⟨?_, ?_⟩
      · show tg ≠ "h1"
        intro he
        rw [he] at hk
        simp [headingLevel?] at hk
      · show tagsOkL (fun s => s ≠ "h1") (normHL m [] cs)
        exact tagsOkL_normHL_no_h1 m cs
    | some k =>
      dsimp only
      rw [if_neg (by simp)]
      have hk16 : 1 ≤ k ∧ k ≤ 6 := by
        rcases headingLevel?_cases tg k hk with h | h | h | h | h | h <;> omega
      by_cases htg : tg ≠ "h6"
      · rw [if_pos htg, tagsOk_iff]
        refine ⟨?_, ?_⟩
        · show "h" ++ toString (k - m + 2) ≠ "h1"
          exact heading_rename_ne_h1 k m hk16.1 hk16.2
        · show tagsOkL (fun s => s ≠ "h1") (normHL m [] cs)
          exact tagsOkL_normHL_no_h1 m cs
      · rw [if_neg htg, tagsOk_iff]
        refine ⟨?_, ?_⟩
        · show "p" ≠ "h1"
          decide
        · show tagsOkL (fun s => s ≠ "h1")
            [((HNode.newElem "strong").withText tx).withChildren (normHL m [] cs)]
          refine tagsOkL_singleton _ ?_
          apply tagsOk_withChildren
          · show "strong" ≠ "h1"
            decide
          · exact tagsOkL_normHL_no_h1 m cs

theorem tagsOkL_normHL_no_h1 (m : Nat) :
    ∀ cs : List HNode, tagsOkL (fun s => s ≠ "h1") (normHL m [] cs)
  | [] => tagsOkL_nil _
  | c :: cs => by
    simp only [normHL]
    rw [tagsOkL_cons]
    exact ⟨tagsOk_normH_no_h1 m c, tagsOkL_normHL_no_h1 m cs⟩

end

theorem tagsOk_normalize_no_h1 (doc : HNode) (hroot : doc.tag ≠ "h1") :
    tagsOk (fun s => s ≠ "h1") (normalize_headings_level doc []) := by
  unfold normalize_headings_level
  refine tagsOk_withChildren _ _ _ ?_ ?_
  · exact hroot
  · exact tagsOkL_normHL_no_h1 _ doc.children

theorem set_article_root_tag (doc : HNode) :
    (set_article_tag_as_root doc).tag = "article" := by
  unfold set_article_tag_as_root
  split_ifs
  · rfl
  · simp


/-- The whole pipeline after link absolutization, run with an empty
whitelist, emits no `h1`: set_article_tag_as_root gives the root tag
`article`, normalize_headings_level renames every heading to `h2`..`h8` or
to `p`/`strong`, and every later pass only introduces the tags `br`, `p`,
`div`, `figure`, `figcaption`, `strong`, `dt`, `li`, `tr`. -/
theorem clean_doc_rest_no_h1 (doc : HNode) :
    tagsOk (fun s => s ≠ "h1") (clean_doc_rest [] doc) := by
  unfold clean_doc_rest
  dsimp only
  refine tagsOk_almost_pretty_format _ _ ?_
  refine tagsOk_top_level_media_within_figure _ ?_ _ _ ?_
  · decide
  refine tagsOk_paragraphy _ ?_ _ ?_
  · decide
  refine tagsOk_kill_tag_content _ _ _ ?_
  refine tagsOk_clean_figcaptions_html _ ?_ ?_ _ ?_
  · decide
  · decide
  refine tagsOk_clean_double_br_above_figcaption _ _ ?_
  refine tagsOk_clean_incomplete_structures _ ?_ _ _ _ _ ?_
  · decide
  refine tagsOk_clean_incomplete_structures _ ?_ _ _ _ _ ?_
  · decide
  refine tagsOk_remove_figures_without_content _ ?_ _ ?_
  · decide
  refine tagsOk_create_figures_from_isolated_figcaptions _ ?_ ?_ ?_ ?_ _ ?_
  · decide
  · decide
  · decide
  · decide
  apply tagsOk_normalize_no_h1
  rw [set_article_root_tag]
  decide

/-- C6, amended.  As stated the claim is false: headings inside whitelisted
embed subtrees are skipped by normalize_headings_level, so an `h1` can
survive (see the counterexample), and later passes can remove the h2 that
realised the minimum.  Amended claim: for every input with document-unique
node ids and no whitelisted embedding (`integrate_embeddings` empty — the
whitelist correction), the cleaned tree contains no `h1` element at all. -/
theorem C6_amended_no_h1 (urljoin : String → String → Option String)
    (setOk : String → Bool) (node : HNode) (url : Option String)
    (hids : ((allNodes node).map HNode.idOf).Nodup)
    (hwl : integrate_embeddings node = []) :
    (allNodes (clean_node urljoin setOk node url)).all
      (fun n => n.tag != "h1") = true := by
  have key : ∀ d : HNode,
      (allNodes (clean_doc_rest [] d)).all (fun n => n.tag != "h1") = true := by
    intro d
    have h := clean_doc_rest_no_h1 d
    rw [List.all_eq_true]
    intro n hn
    simpa using h n hn
  unfold clean_node clean_nodeChecked clean_docChecked
  rw [hwl]
  cases url with
  | none => exact key node
  | some b =>
    dsimp only
    cases hm : make_links_absoluteChecked urljoin setOk b node with
    | ok d0 => exact key d0
    | error e =>
      have h := foldlM_linkStep_ok urljoin setOk b (collectLinks node) node
        (fun l hl => collectLinks_present node hids l hl)
      rw [make_links_absoluteChecked] at hm
      rw [hm] at h
      exact absurd h (by simp [Except.isOk, Except.toBool])

theorem C6_amended_no_h1_witness :
    ((allNodes idemInput).map HNode.idOf).Nodup ∧
    integrate_embeddings idemInput = [] ∧
    (allNodes (clean_node (fun _ l => some l) (fun _ => true) idemInput
      (some "http://example.com/"))).all (fun n => n.tag != "h1") = true :=
  ⟨by decide, by decide,
    C6_amended_no_h1 (fun _ l => some l) (fun _ => true) idemInput
      (some "http://example.com/") (by decide) (by decide)⟩
